import Mathlib

/-!
Verification of the Magic-File-Transfer upload coordinator.

Shallow embedding of `src/uploadManager.js`, the DataStore (`datastore.js`,
shipped as `src/unnamed/part_000`) and the relevant HTTP handlers of
`server.js`.  JavaScript objects used as string-keyed maps are embedded as
association lists (`List (κ × α)`) with JS semantics: assignment replaces in
place or appends, `delete` removes, lookup returns `Option`.  The wall clock
(`new Date().toISOString()`) and the nanoid factories are passed in as
explicit parameters (`now`, `freshIds`, `uploadId`), since the JS code treats
them as opaque oracles.  Promise rejections / thrown errors are embedded as
`Except Err` with the error message as payload.
-/

namespace MFT

abbrev Err := String

/-- JS object lookup `m[k]`: `none` plays the role of `undefined`. -/
def mget {κ α : Type} [DecidableEq κ] (m : List (κ × α)) (k : κ) : Option α :=
  match m with
  | [] => none
  | (k₀, v₀) :: rest => if k₀ = k then some v₀ else mget rest k

/-- JS object assignment `m[k] = v`: replaces in place, appends if absent. -/
def mset {κ α : Type} [DecidableEq κ] (m : List (κ × α)) (k : κ) (v : α) :
    List (κ × α) :=
  match m with
  | [] => [(k, v)]
  | (k₀, v₀) :: rest => if k₀ = k then (k, v) :: rest else (k₀, v₀) :: mset rest k v

/-- JS `delete m[k]`. -/
def mdel {κ α : Type} [DecidableEq κ] (m : List (κ × α)) (k : κ) : List (κ × α) :=
  match m with
  | [] => []
  | (k₀, v₀) :: rest => if k₀ = k then mdel rest k else (k₀, v₀) :: mdel rest k

/-! ## DataStore (`datastore.js`)

The store keeps a promise chain `this._lock`.  Each `withState`/`readState`
call replaces the chain with `this._lock.then(...)` — `.then` with no
rejection handler, so once the chain is rejected every later `.then` callback
is skipped and the rejection propagates.  The embedding records the settled
outcome of the chain in `lockErr` (`none` = fulfilled, `some e` = rejected
with `e`).  `_read` parses the backing JSON file fresh on every operation and
`_write` replaces it; a mutator that throws skips `_write`, so the in-memory
mutations it may have made are discarded — embedded as a mutator of type
`α → Except Err (α × β)` whose error branch carries no state. -/

structure Store (α : Type) where
  file : α
  lockErr : Option Err
deriving Repr, DecidableEq

/-- The `DataStore.withState(mutator)`: chain onto the lock; when the chain is
rejected the mutator never runs and the caller receives the old rejection;
otherwise read the file, run the mutator, write back only on success. -/
def withState {α β : Type} (σ : Store α) (mutator : α → Except Err (α × β)) :
    Store α × Except Err β :=
  match σ.lockErr with
  | some e => (σ, .error e)
  | none =>
    match mutator σ.file with
    | .ok (s, v) => ({ file := s, lockErr := none }, .ok v)
    | .error e => ({ σ with lockErr := some e }, .error e)

/-- The `DataStore.readState(selector)`: same chaining discipline, no write. -/
def readState {α β : Type} (σ : Store α) (selector : α → Except Err β) :
    Store α × Except Err β :=
  match σ.lockErr with
  | some e => (σ, .error e)
  | none =>
    match selector σ.file with
    | .ok v => (σ, .ok v)
    | .error e => ({ σ with lockErr := some e }, .error e)

/-- Projects the success payload of an `Except`. -/
def exceptOk {β : Type} : Except Err β → Option β
  | .ok v => some v
  | .error _ => none

/-! ## Data model (`uploadManager.js`)

An upload-metadata object.  JS objects may lack a field, so the fields that
are sometimes absent (`missingChunks` — only set on decorated clones,
`completedAt` — only set on finalize, `receivedCount` — claimed to be
read-only derived) are `Option`s with `none` = field absent.
`receivedChunks` holds the keys of the JS object `{<index>: true}` without
duplicates (the code inserts a key only when it is not yet present).
`fileSize`/`chunkSize` are JS numbers, embedded as `ℚ`. -/

structure UploadMeta where
  id : String
  userKey : String
  fileName : String
  fileSize : ℚ
  chunkSize : ℚ
  totalChunks : ℤ
  persist : Bool
  status : String
  receivedChunks : List ℤ
  receivedCount : Option ℤ
  missingChunks : Option (List ℤ)
  createdAt : String
  updatedAt : String
  completedAt : Option String
deriving Repr, DecidableEq

/-- The `UploadManager._toHistoryEntry` output shape. -/
structure HistoryEntry where
  id : String
  fileName : String
  fileSize : ℚ
  completedAt : String
  chunkSize : ℚ
  totalChunks : ℤ
  persist : Bool
deriving Repr, DecidableEq

/-- A user record as persisted in `state.json`. -/
structure UserRecord where
  key : String
  createdAt : String
  uploads : List (String × UploadMeta)
  history : List HistoryEntry
deriving Repr, DecidableEq

/-- The state document `{ users: {...} }`. -/
structure StateDoc where
  users : List (String × UserRecord)
deriving Repr, DecidableEq

/-- An entry of the `ephemeral` Map: `{ uploads: Map }`. -/
structure EphUser where
  uploads : List (String × UploadMeta)
deriving Repr, DecidableEq

/-- The mutable state of an `UploadManager`: its `DataStore` plus the
in-memory `ephemeral` Map. -/
structure MgrState where
  store : Store StateDoc
  ephemeral : List (String × EphUser)
deriving Repr, DecidableEq

/-- The `UploadManager._ensureUserRecord`: get-or-create the user record inside a
state document (the JS version mutates `state` in place and returns the
record; the embedding returns the updated document and the record). -/
def ensureUserRecord (s : StateDoc) (userKey : String) (now : String) :
    StateDoc × UserRecord :=
  match mget s.users userKey with
  | some user => (s, user)
  | none =>
    let user : UserRecord := { key := userKey, createdAt := now, uploads := [], history := [] }
    ({ s with users := mset s.users userKey user }, user)

/-- The `UploadManager._ensureEphemeralUser`. -/
def ensureEphemeralUser (m : List (String × EphUser)) (userKey : String) :
    List (String × EphUser) :=
  match mget m userKey with
  | some _ => m
  | none => mset m userKey { uploads := [] }

/-- The `UploadManager._missingChunks`: indices in `[0, totalChunks)` that are not
keys of `receivedChunks`, ascending (the JS loop `for (let i = 0; i <
totalChunks; i += 1)` runs zero times when `totalChunks ≤ 0`). -/
def missingChunksOf (u : UploadMeta) : List ℤ :=
  (List.range u.totalChunks.toNat).filterMap fun i =>
    if u.receivedChunks.contains (i : ℤ) then none else some (i : ℤ)

/-- The `UploadManager._decorateUpload`: clone plus derived fields.  The clone
itself (`_deepClone`, `JSON.parse(JSON.stringify(...))`) is identity on the
value level; its heap-isolation behaviour is modelled separately below. -/
def decorateUpload (u : UploadMeta) : UploadMeta :=
  let missing := missingChunksOf u
  { u with missingChunks := some missing,
           receivedCount := some (u.totalChunks - missing.length) }

/-- The `UploadManager._markChunk`: bounds-check, insert the index if absent,
recompute `receivedCount` from the key count, reset status, touch
`updatedAt`.  The guard throws before anything is mutated. -/
def markChunk (u : UploadMeta) (chunkIndex : ℤ) (now : String) :
    Except Err UploadMeta :=
  if chunkIndex < 0 ∨ u.totalChunks ≤ chunkIndex then .error "chunk_out_of_range"
  else
    let rc := if u.receivedChunks.contains chunkIndex then u.receivedChunks
              else u.receivedChunks ++ [chunkIndex]
    .ok { u with receivedChunks := rc,
                 receivedCount := some (rc.length : ℤ),
                 status := "active",
                 updatedAt := now }

/-- The `UploadManager._toHistoryEntry`. -/
def toHistoryEntry (u : UploadMeta) (now : String) : HistoryEntry :=
  { id := u.id,
    fileName := u.fileName,
    fileSize := u.fileSize,
    completedAt := u.completedAt.getD now,
    chunkSize := u.chunkSize,
    totalChunks := u.totalChunks,
    persist := u.persist }

/-- The `user.history.unshift(entry); if (user.history.length > 200)
user.history = user.history.slice(0, 200)`. -/
def pushHistory (history : List HistoryEntry) (entry : HistoryEntry) :
    List HistoryEntry :=
  let h := entry :: history
  if 200 < h.length then h.take 200 else h

/-! ## Upload manager operations

Each operation returns the successor `MgrState` together with the value the
JS promise settles with.  `now` stands for `this._now()`; `freshIds` feeds
the nanoid user-id factory (one entry per `this._createUserId()` call — the
JS retry loop runs until an id unused in `state.users` comes out, so the
embedding reports a modelling-artifact error when the supplied stream runs
dry); `uploadId` stands for `this._createFileId()`. -/

structure IdentifyResult where
  userKey : String
  created : Bool
deriving Repr, DecidableEq

/-- The `do { candidate = this._createUserId(); } while (state.users[candidate])`
retry loop of `identifyUser`. -/
def genFreshId (users : List (String × UserRecord)) :
    List String → Except Err String
  | [] => .error "id_factory_exhausted"
  | idc :: rest =>
    if (mget users idc).isSome then genFreshId users rest else .ok idc

/-- The mutator `identifyUser` submits to `withState`: keep the requested key
as candidate unless it is missing or already taken, then create the record
if absent and report `created: true`. -/
def identifyMutator (requestedKey : Option String) (freshIds : List String)
    (now : String) (s : StateDoc) : Except Err (StateDoc × IdentifyResult) :=
  let picked : Except Err String :=
    match requestedKey with
    | none => genFreshId s.users freshIds
    | some k =>
      if (mget s.users k).isSome then genFreshId s.users freshIds else .ok k
  match picked with
  | .error e => .error e
  | .ok candidate =>
    let fresh : UserRecord :=
      { key := candidate, createdAt := now, uploads := [], history := [] }
    let s₁ :=
      if (mget s.users candidate).isSome then s
      else { s with users := mset s.users candidate fresh }
    .ok (s₁, { userKey := candidate, created := true })

/-- The `UploadManager.identifyUser`.  `requestedKey = none` covers both an
absent and a falsy (empty) requested key. -/
def identifyUser (σ : MgrState) (requestedKey : Option String)
    (freshIds : List String) (now : String) :
    MgrState × Except Err IdentifyResult :=
  let afterCheck : MgrState × Option (Except Err IdentifyResult) :=
    match requestedKey with
    | some k =>
      let p := readState σ.store fun s => .ok (mget s.users k).isSome
      match p.2 with
      | .error e => ({ σ with store := p.1 }, some (.error e))
      | .ok true =>
        ({ σ with store := p.1, ephemeral := ensureEphemeralUser σ.ephemeral k },
         some (.ok { userKey := k, created := false }))
      | .ok false => ({ σ with store := p.1 }, none)
    | none => (σ, none)
  match afterCheck with
  | (σ₁, some out) => (σ₁, out)
  | (σ₁, none) =>
    let p := withState σ₁.store (identifyMutator requestedKey freshIds now)
    match p.2 with
    | .error e => ({ σ₁ with store := p.1 }, .error e)
    | .ok res =>
      ({ store := p.1, ephemeral := ensureEphemeralUser σ₁.ephemeral res.userKey },
       .ok res)

structure CreateArgs where
  fileName : String
  fileSize : ℚ
  chunkSize : ℚ
  persist : Bool
deriving Repr, DecidableEq

/-- The fresh metadata object `createUpload` builds (`baseMetadata`).  Note
that it does contain `receivedCount: 0` and no `missingChunks` key. -/
def baseMetadata (userKey : String) (args : CreateArgs) (uploadId : String)
    (now : String) : UploadMeta :=
  { id := uploadId,
    userKey := userKey,
    fileName := args.fileName,
    fileSize := args.fileSize,
    chunkSize := args.chunkSize,
    totalChunks := ⌈args.fileSize / args.chunkSize⌉,
    persist := args.persist,
    status := "active",
    receivedChunks := [],
    receivedCount := some 0,
    missingChunks := none,
    createdAt := now,
    updatedAt := now,
    completedAt := none }

/-- The `UploadManager.createUpload` (the chunk-scratch `fs.ensureDir` touches no
metadata and is not modelled here). -/
def createUpload (σ : MgrState) (userKey : String) (args : CreateArgs)
    (uploadId : String) (now : String) : MgrState × Except Err UploadMeta :=
  let base := baseMetadata userKey args uploadId now
  if base.persist then
    let p := withState σ.store fun s =>
      let q := ensureUserRecord s userKey now
      let user := { q.2 with uploads := mset q.2.uploads uploadId base }
      .ok ({ q.1 with users := mset q.1.users userKey user }, (() : Unit))
    match p.2 with
    | .error e => ({ σ with store := p.1 }, .error e)
    | .ok _ => ({ σ with store := p.1 }, .ok (decorateUpload base))
  else
    let eu := match mget σ.ephemeral userKey with
      | some eu => eu
      | none => { uploads := [] }
    let eu₁ : EphUser := { uploads := mset eu.uploads uploadId base }
    ({ σ with ephemeral := mset σ.ephemeral userKey eu₁ },
     .ok (decorateUpload base))

/-- The dispatch test shared by `recordChunk`, `updateStatus`,
`finalizeUpload` and `removeUpload`:
`memoryUser && memoryUser.uploads.has(uploadId)`, returning the ephemeral
bucket and the upload when both exist. -/
def ephLookup (σ : MgrState) (userKey uploadId : String) :
    Option (EphUser × UploadMeta) :=
  match mget σ.ephemeral userKey with
  | some eu =>
    match mget eu.uploads uploadId with
    | some u => some (eu, u)
    | none => none
  | none => none

structure RecordResult where
  upload : UploadMeta
  completed : Bool
deriving Repr, DecidableEq

/-- The mutator `recordChunk` submits to `withState` on the persistent path. -/
def recordChunkMutator (userKey uploadId : String) (chunkIndex : ℤ)
    (now : String) (s : StateDoc) : Except Err (StateDoc × RecordResult) :=
  match mget s.users userKey with
  | none => .error "upload_not_found"
  | some user =>
    match mget user.uploads uploadId with
    | none => .error "upload_not_found"
    | some u =>
      match markChunk u chunkIndex now with
      | .error e => .error e
      | .ok u₁ =>
        let d := decorateUpload u₁
        let user₁ := { user with uploads := mset user.uploads uploadId u₁ }
        .ok ({ s with users := mset s.users userKey user₁ },
             { upload := d, completed := (d.missingChunks.getD []).isEmpty })

/-- The `UploadManager.recordChunk`: ephemeral bucket first, else a store
transaction. -/
def recordChunk (σ : MgrState) (userKey uploadId : String) (chunkIndex : ℤ)
    (now : String) : MgrState × Except Err RecordResult :=
  match ephLookup σ userKey uploadId with
  | some (eu, u) =>
    match markChunk u chunkIndex now with
    | .error e => (σ, .error e)
    | .ok u₁ =>
      let d := decorateUpload u₁
      let eu₁ : EphUser := { uploads := mset eu.uploads uploadId u₁ }
      ({ σ with ephemeral := mset σ.ephemeral userKey eu₁ },
       .ok { upload := d, completed := (d.missingChunks.getD []).isEmpty })
  | none =>
    let p := withState σ.store (recordChunkMutator userKey uploadId chunkIndex now)
    ({ σ with store := p.1 }, p.2)

/-- The `UploadManager.updateStatus`. -/
def updateStatus (σ : MgrState) (userKey uploadId status : String)
    (now : String) : MgrState × Except Err UploadMeta :=
  match ephLookup σ userKey uploadId with
  | some (eu, u) =>
    let u₁ := { u with status := status, updatedAt := now }
    let eu₁ : EphUser := { uploads := mset eu.uploads uploadId u₁ }
    ({ σ with ephemeral := mset σ.ephemeral userKey eu₁ },
     .ok (decorateUpload u₁))
  | none =>
    let p := withState σ.store fun s =>
      match mget s.users userKey with
      | none => .error "upload_not_found"
      | some user =>
        match mget user.uploads uploadId with
        | none => .error "upload_not_found"
        | some u =>
          let u₁ := { u with status := status, updatedAt := now }
          let user₁ := { user with uploads := mset user.uploads uploadId u₁ }
          .ok ({ s with users := mset s.users userKey user₁ },
               decorateUpload u₁)
    ({ σ with store := p.1 }, p.2)

/-- The `UploadManager.finalizeUpload`. -/
def finalizeUpload (σ : MgrState) (userKey uploadId : String) (now : String) :
    MgrState × Except Err UploadMeta :=
  match ephLookup σ userKey uploadId with
  | some (eu, u) =>
    let u₁ := { u with status := "completed", completedAt := some now }
    let eu₁ : EphUser := { uploads := mdel eu.uploads uploadId }
    let σ₁ : MgrState :=
      { σ with ephemeral := mset σ.ephemeral userKey eu₁ }
    let p := withState σ₁.store fun s =>
      let q := ensureUserRecord s userKey now
      let user := { q.2 with history := pushHistory q.2.history (toHistoryEntry u₁ now) }
      .ok ({ q.1 with users := mset q.1.users userKey user }, (() : Unit))
    match p.2 with
    | .error e => ({ σ₁ with store := p.1 }, .error e)
    | .ok _ => ({ σ₁ with store := p.1 }, .ok (decorateUpload u₁))
  | none =>
    let p := withState σ.store fun s =>
      match mget s.users userKey with
      | none => .error "upload_not_found"
      | some user =>
        match mget user.uploads uploadId with
        | none => .error "upload_not_found"
        | some u =>
          let u₁ := { u with status := "completed", completedAt := some now }
          let d := decorateUpload u₁
          let user₁ :=
            { user with
                history := pushHistory user.history (toHistoryEntry u₁ now),
                uploads := mdel user.uploads uploadId }
          .ok ({ s with users := mset s.users userKey user₁ }, d)
    ({ σ with store := p.1 }, p.2)

/-- The `UploadManager.removeUpload`. -/
def removeUpload (σ : MgrState) (userKey uploadId : String) (forget : Bool)
    (now : String) : MgrState × Except Err UploadMeta :=
  match ephLookup σ userKey uploadId with
  | some (eu, u) =>
    let eu₁ : EphUser := { uploads := mdel eu.uploads uploadId }
    let σ₁ : MgrState :=
      { σ with ephemeral := mset σ.ephemeral userKey eu₁ }
    if forget then (σ₁, .ok (decorateUpload u))
    else
      let p := withState σ₁.store fun s =>
        let q := ensureUserRecord s userKey now
        let user := { q.2 with history := pushHistory q.2.history (toHistoryEntry u now) }
        .ok ({ q.1 with users := mset q.1.users userKey user }, (() : Unit))
      match p.2 with
      | .error e => ({ σ₁ with store := p.1 }, .error e)
      | .ok _ => ({ σ₁ with store := p.1 }, .ok (decorateUpload u))
  | none =>
    let p := withState σ.store fun s =>
      match mget s.users userKey with
      | none => .error "upload_not_found"
      | some user =>
        match mget user.uploads uploadId with
        | none => .error "upload_not_found"
        | some u =>
          let d := decorateUpload u
          let hist := if forget then user.history
                      else pushHistory user.history (toHistoryEntry u now)
          let user₁ := { user with history := hist, uploads := mdel user.uploads uploadId }
          .ok ({ s with users := mset s.users userKey user₁ }, d)
    ({ σ with store := p.1 }, p.2)

/-- The `UploadManager.clearHistory`. -/
def clearHistory (σ : MgrState) (userKey : String) :
    MgrState × Except Err (List HistoryEntry) :=
  let p := withState σ.store fun s =>
    match mget s.users userKey with
    | none => .error "user_not_found"
    | some user =>
      let user₁ := { user with history := ([] : List HistoryEntry) }
      .ok ({ s with users := mset s.users userKey user₁ }, ([] : List HistoryEntry))
  ({ σ with store := p.1 }, p.2)

/-! ## Chunk store and `assembleFile`

The relevant filesystem fragment: the `<uploadDir>/<id>/<i>.part` scratch
files and the files under `finalDir`, both as maps from path key to byte
list.  `fs.createWriteStream(finalPath)` opens the file with flag `w`,
creating/truncating it; each piped chunk appends; `writeStream.destroy()`
aborts the stream but does not unlink the file. -/

structure FS where
  parts : List ((String × ℤ) × List ℕ)
  finalFiles : List (String × List ℕ)
deriving Repr, DecidableEq

/-- One character of `_safeFileName`'s kept class `[A-Za-z0-9._-]`. -/
def isSafeChar (c : Char) : Bool :=
  ('A' ≤ c && c ≤ 'Z') || ('a' ≤ c && c ≤ 'z') || ('0' ≤ c && c ≤ '9')
    || c == '.' || c == '_' || c == '-'

/-- The `path.basename` (POSIX): strip trailing slashes, then keep the part
after the last slash (implemented over the character list so that it
evaluates by reduction). -/
def basenameOf (s : String) : String :=
  let cs := s.data.reverse.dropWhile (· == '/')
  String.mk (cs.takeWhile (fun c => !(c == '/'))).reverse

/-- The `UploadManager._safeFileName`. -/
def safeFileName (name : String) : String :=
  String.mk ((basenameOf name).data.map fun c => if isSafeChar c then c else '_')

/-- The per-chunk loop of `assembleFile`: look up `<i>.part`; on a miss,
destroy the stream (the partially written final file stays on disk) and
reject with `missing_chunk_<i>`; on a hit, pipe the bytes onto the final
file. -/
def assembleLoop (uploadId finalPath : String) :
    FS → List ℕ → FS × Except Err Unit
  | fs, [] => (fs, .ok ())
  | fs, i :: rest =>
    match mget fs.parts (uploadId, (i : ℤ)) with
    | none => (fs, .error ("missing_chunk_" ++ toString i))
    | some bytes =>
      let prev := (mget fs.finalFiles finalPath).getD []
      assembleLoop uploadId finalPath
        { fs with finalFiles := mset fs.finalFiles finalPath (prev ++ bytes) } rest

/-- The `UploadManager.assembleFile`: open (create/truncate) the final file at
its final path, stream the parts in ascending order, then remove the
scratch directory and return the final path. -/
def assembleFile (fs : FS) (_uploadDir finalDir : String) (u : UploadMeta) :
    FS × Except Err String :=
  let finalPath := finalDir ++ "/" ++ u.id ++ "-" ++ safeFileName u.fileName
  let fs₀ : FS := { fs with finalFiles := mset fs.finalFiles finalPath [] }
  let p := assembleLoop u.id finalPath fs₀ (List.range u.totalChunks.toNat)
  match p.2 with
  | .error e => (p.1, .error e)
  | .ok _ =>
    ({ p.1 with parts := p.1.parts.filter fun q => q.1.1 ≠ u.id },
     .ok finalPath)

/-! ## HTTP handler `POST /api/uploads` (`server.js`)

`Number(fileSize)` / `Number(chunkSize)` produce a JS number; `none` below
models a non-finite result (`NaN`/`±Infinity`), which fails the
`Number.isFinite` check. -/

def postUploads (σ : MgrState) (userKey fileName : Option String)
    (fileSize chunkSize : Option ℚ) (persist : Bool)
    (uploadId now : String) : MgrState × Except Err UploadMeta :=
  match userKey, fileName with
  | some uk, some fn =>
    match fileSize, chunkSize with
    | some size, some chunk =>
      if size ≤ 0 ∨ chunk ≤ 0 then (σ, .error "invalid_sizes")
      else createUpload σ uk
        { fileName := fn, fileSize := size, chunkSize := chunk, persist := persist }
        uploadId now
    | _, _ => (σ, .error "invalid_sizes")
  | _, _ => (σ, .error "missing_fields")

/-- Observer used in theorem statements: the metadata stored for
`(userKey, uploadId)`, looked up with `recordChunk`'s dispatch order
(ephemeral bucket first, then the persisted document). -/
def peekUpload (σ : MgrState) (userKey uploadId : String) : Option UploadMeta :=
  match ephLookup σ userKey uploadId with
  | some p => some p.2
  | none =>
    match mget σ.store.file.users userKey with
    | some user => mget user.uploads uploadId
    | none => none

/-! ## The manager operation alphabet

Used to state reachability invariants over the persisted document: one
constructor per `UploadManager` operation, carrying the operation's inputs
and its oracle values. -/

inductive MgrOp where
  | opIdentify (requestedKey : Option String) (freshIds : List String) (now : String)
  | opCreate (userKey : String) (args : CreateArgs) (uploadId now : String)
  | opRecord (userKey uploadId : String) (chunkIndex : ℤ) (now : String)
  | opStatus (userKey uploadId status now : String)
  | opFinalize (userKey uploadId now : String)
  | opRemove (userKey uploadId : String) (forget : Bool) (now : String)
  | opClear (userKey : String)

/-- Run one manager operation, keeping only the successor state. -/
def applyOp (σ : MgrState) : MgrOp → MgrState
  | .opIdentify r f n => (identifyUser σ r f n).1
  | .opCreate uk args uid n => (createUpload σ uk args uid n).1
  | .opRecord uk uid i n => (recordChunk σ uk uid i n).1
  | .opStatus uk uid st n => (updateStatus σ uk uid st n).1
  | .opFinalize uk uid n => (finalizeUpload σ uk uid n).1
  | .opRemove uk uid f n => (removeUpload σ uk uid f n).1
  | .opClear uk => (clearHistory σ uk).1

/-- No upload metadata stored in the persisted document carries a
`missingChunks` field. -/
def noStoredMissingChunks (s : StateDoc) : Prop :=
  ∀ p ∈ s.users, ∀ q ∈ (p.2).uploads, (q.2).missingChunks = none

/-! ## Heap model for `_deepClone`

`_deepClone(value)` is `JSON.parse(JSON.stringify(value))`.  On the pure
value level this is the identity, but its point in the source is aliasing:
the parsed result consists of freshly allocated objects, so mutating the
returned object cannot change the object held in the store.  To state that,
JS objects are modelled by a heap: a list of objects addressed by index,
object fields holding either primitives or references. -/

inductive JVal where
  | jnum (n : ℤ)
  | jstr (s : String)
  | jbool (b : Bool)
  | jnull
  | jref (a : ℕ)
deriving Repr, DecidableEq

abbrev JObj := List (String × JVal)

abbrev Heap := List JObj

/-! The tree a JS value serializes to (`JSON.stringify`), mutual with its
field lists so that induction stays first-order. -/
mutual
inductive JTree where
  | tnum (n : ℤ)
  | tstr (s : String)
  | tbool (b : Bool)
  | tnull
  | tobj (fields : JFields)
deriving Repr, DecidableEq

inductive JFields where
  | nil
  | cons (key : String) (val : JTree) (rest : JFields)
deriving Repr, DecidableEq
end

/-- Serialize an object's fields with the given value serializer. -/
def readFields (f : JVal → Option JTree) : JObj → Option JFields
  | [] => some .nil
  | (k, v) :: rest =>
    match f v, readFields f rest with
    | some t, some ts => some (.cons k t ts)
    | _, _ => none

/-- The `JSON.stringify`, fuel-bounded (a cyclic object graph makes the real
`JSON.stringify` throw; fuel exhaustion returns `none`). -/
def readVal (h : Heap) : ℕ → JVal → Option JTree
  | 0, _ => none
  | _ + 1, .jnum n => some (.tnum n)
  | _ + 1, .jstr s => some (.tstr s)
  | _ + 1, .jbool b => some (.tbool b)
  | _ + 1, .jnull => some .tnull
  | fuel + 1, .jref a =>
    match h.get? a with
    | none => none
    | some obj => (readFields (readVal h fuel) obj).map .tobj

/-! `allocTree` is `JSON.parse`: build a fresh object graph for a tree,
allocating every object at the end of the heap. -/
mutual
def allocTree (h : Heap) : JTree → Heap × JVal
  | .tnum n => (h, .jnum n)
  | .tstr s => (h, .jstr s)
  | .tbool b => (h, .jbool b)
  | .tnull => (h, .jnull)
  | .tobj fs =>
    let p := allocFields h fs
    (p.1 ++ [p.2], .jref p.1.length)

def allocFields (h : Heap) : JFields → Heap × JObj
  | .nil => (h, [])
  | .cons k t rest =>
    let p := allocTree h t
    let q := allocFields p.1 rest
    (q.1, (k, p.2) :: q.2)
end

/-- The `_deepClone` on the heap: serialize, then parse into fresh objects. -/
def deepCloneH (h : Heap) (fuel : ℕ) (v : JVal) : Option (Heap × JVal) :=
  (readVal h fuel v).map (allocTree h)

/-- A heap mutation: overwrite field `k` of the object at address `a`
(`obj[k] = w`). -/
def setField (h : Heap) (a : ℕ) (k : String) (w : JVal) : Heap :=
  match h.get? a with
  | none => h
  | some obj => h.set a (mset obj k w)

/-- All references of a value lie below `n`. -/
def valRefsBelow (n : ℕ) : JVal → Bool
  | .jref a => decide (a < n)
  | _ => true

/-- All references of an object's fields lie below `n`. -/
def objRefsBelow (n : ℕ) (o : JObj) : Bool :=
  o.all fun p => valRefsBelow n p.2

/-- All references of a value lie at or above `n` (fresh territory). -/
def valRefsAtLeast (n : ℕ) : JVal → Bool
  | .jref a => decide (n ≤ a)
  | _ => true

/-- All references of an object's fields lie at or above `n`. -/
def objRefsAtLeast (n : ℕ) (o : JObj) : Bool :=
  o.all fun p => valRefsAtLeast n p.2

/-- The heap is closed below `n`: objects at addresses `< n` only reference
addresses `< n`. -/
def heapClosedBelow (n : ℕ) (h : Heap) : Bool :=
  (h.take n).all (objRefsBelow n)

/-- Two heaps agree at every address below `n`. -/
def agreeBelow (n : ℕ) (h₁ h₂ : Heap) : Prop :=
  ∀ a, a < n → h₁.get? a = h₂.get? a

/-! Depth of a serialized tree: the fuel needed to read an allocated copy
back. -/
mutual
def treeDepth : JTree → ℕ
  | .tnum _ => 1
  | .tstr _ => 1
  | .tbool _ => 1
  | .tnull => 1
  | .tobj fs => fieldsDepth fs + 1

def fieldsDepth : JFields → ℕ
  | .nil => 0
  | .cons _ t rest => max (treeDepth t) (fieldsDepth rest)
end

/-! ## Concrete sample states used by the claim witnesses -/

/-- The upload used to exercise `assembleFile` with a missing part. -/
def c2Upload : UploadMeta :=
  { id := "u1", userKey := "u", fileName := "a.txt", fileSize := 10,
    chunkSize := 6, totalChunks := 2, persist := true, status := "active",
    receivedChunks := [0, 1], receivedCount := some 2, missingChunks := none,
    createdAt := "t0", updatedAt := "t1", completedAt := none }

/-- Witness for `recordChunk_out_of_range_atomic`: index 5 on a two-chunk
persistent upload. -/
def c9Upload : UploadMeta :=
  { id := "f1", userKey := "u", fileName := "a", fileSize := 10,
    chunkSize := 6, totalChunks := 2, persist := true, status := "active",
    receivedChunks := [], receivedCount := some 0, missingChunks := none,
    createdAt := "t0", updatedAt := "t0", completedAt := none }

def c9State : MgrState :=
  ⟨⟨⟨[("u", { key := "u", createdAt := "t0",
              uploads := [("f1", c9Upload)], history := [] })]⟩, none⟩, []⟩

/-- Inputs for the `recordChunk_idempotent` witness: a two-chunk persistent
upload with no chunk yet received. -/
def c7Upload : UploadMeta :=
  { id := "f1", userKey := "u", fileName := "a", fileSize := 10,
    chunkSize := 6, totalChunks := 2, persist := true, status := "active",
    receivedChunks := [], receivedCount := some 0, missingChunks := none,
    createdAt := "t0", updatedAt := "t0", completedAt := none }

def c7State : MgrState :=
  ⟨⟨⟨[("u", { key := "u", createdAt := "t0",
              uploads := [("f1", c7Upload)], history := [] })]⟩, none⟩, []⟩

/-- The metadata after the first `recordChunk` of index 0. -/
def c7Marked : UploadMeta :=
  { c7Upload with receivedChunks := [0], receivedCount := some 1,
                  status := "active", updatedAt := "t1" }

/-- Inputs for the `history_newest_first_capped` witness: one persistent
two-chunk upload. -/
def c8Upload : UploadMeta :=
  { id := "f1", userKey := "u", fileName := "a", fileSize := 10,
    chunkSize := 6, totalChunks := 2, persist := true, status := "active",
    receivedChunks := [0, 1], receivedCount := some 2, missingChunks := none,
    createdAt := "t0", updatedAt := "t0", completedAt := none }

def c8State : MgrState :=
  ⟨⟨⟨[("u", { key := "u", createdAt := "t0",
              uploads := [("f1", c8Upload)], history := [] })]⟩, none⟩, []⟩

/-- The `c8Upload` as `finalizeUpload` completes it. -/
def c8Completed : UploadMeta :=
  { c8Upload with status := "completed", completedAt := some "t1" }

/-! ## Helper lemmas for the association-list maps -/

theorem mget_mset_self {κ α : Type} [DecidableEq κ] (m : List (κ × α)) (k : κ) (v : α) :
    mget (mset m k v) k = some v := by
  induction m with
  | nil => simp [mget, mset]
  | cons hd tl ih =>
    by_cases h : hd.1 = k
    · simp [mset, mget, h]
    · simp [mset, mget, h, ih]

theorem mget_mset_ne {κ α : Type} [DecidableEq κ] (m : List (κ × α)) (k k₁ : κ) (v : α)
    (h : k ≠ k₁) : mget (mset m k v) k₁ = mget m k₁ := by
  induction m with
  | nil => simp [mget, mset, h]
  | cons hd tl ih =>
    by_cases h₀ : hd.1 = k
    · simp [mset, mget, h₀, h]
    · simp [mset, mget, h₀, ih]

theorem mem_mset {κ α : Type} [DecidableEq κ] {m : List (κ × α)} {k : κ} {v : α}
    {p : κ × α} : p ∈ mset m k v → p = (k, v) ∨ p ∈ m := by
  induction m with
  | nil =>
    intro h
    simpa [mset] using h
  | cons hd tl ih =>
    intro h
    by_cases h₀ : hd.1 = k
    · simp only [mset, h₀, if_true, List.mem_cons] at h
      rcases h with h | h
      · exact Or.inl h
      · exact Or.inr (List.mem_cons_of_mem _ h)
    · simp only [mset, h₀, if_false, List.mem_cons] at h
      rcases h with h | h
      · exact Or.inr (by simp [h])
      · rcases ih h with h | h
        · exact Or.inl h
        · exact Or.inr (List.mem_cons_of_mem _ h)

theorem mem_mdel {κ α : Type} [DecidableEq κ] {m : List (κ × α)} {k : κ}
    {p : κ × α} : p ∈ mdel m k → p ∈ m := by
  induction m with
  | nil =>
    intro h
    simp [mdel] at h
  | cons hd tl ih =>
    intro h
    by_cases h₀ : hd.1 = k
    · simp only [mdel, h₀, if_true] at h
      exact List.mem_cons_of_mem _ (ih h)
    · simp only [mdel, h₀, if_false, List.mem_cons] at h
      rcases h with h | h
      · simp [h]
      · exact List.mem_cons_of_mem _ (ih h)

theorem mget_some_mem {κ α : Type} [DecidableEq κ] {m : List (κ × α)} {k : κ} {v : α}
    (h : mget m k = some v) : (k, v) ∈ m := by
  induction m with
  | nil => simp [mget] at h
  | cons hd tl ih =>
    by_cases h₀ : hd.1 = k
    · simp only [mget, h₀, if_true, Option.some.injEq] at h
      subst h₀
      simp [← h]
    · simp only [mget, h₀, if_false] at h
      exact List.mem_cons_of_mem _ (ih h)

/-! ## DataStore lemmas and claims C3, C6 -/

/-- C3 counterexample: submit two `withState` calls in order; the first
call's mutator throws, and the second caller receives the FIRST call's
error, not its own value `.ok 42` — the second mutator is never executed,
contradicting the claim that every submitted operation is eventually
executed even when an earlier mutator threw. -/
theorem withState_poisoned_chain_cex :
    (withState (withState (⟨⟨[]⟩, none⟩ : Store StateDoc)
        fun _ => (.error "boom" : Except Err (StateDoc × ℕ))).1
      fun s => .ok (s, (42 : ℕ))).2 = .error "boom" := by
  rfl

/-- C3 amended: an operation submitted to the store runs (and its caller
receives its own value or its own error) exactly when the lock chain is
still fulfilled; once some mutator has thrown, the chain is rejected
forever and every later `withState`/`readState` call returns that earlier
error without running its mutator/selector. -/
theorem store_queue_execution (α β γ : Type) (σ : Store α)
    (m : α → Except Err (α × β)) (sel : α → Except Err γ) :
    (σ.lockErr = none →
      (withState σ m).2 = (m σ.file).map Prod.snd ∧
      (readState σ sel).2 = sel σ.file) ∧
    (∀ e, σ.lockErr = some e →
      withState σ m = (σ, .error e) ∧ readState σ sel = (σ, .error e)) := by
  constructor
  · intro hl
    constructor
    · unfold withState
      rw [hl]
      cases hm : m σ.file with
      | ok p => simp [Except.map]
      | error e => simp [Except.map]
    · unfold readState
      rw [hl]
      cases hs : sel σ.file <;> simp
  · intro e hl
    unfold withState readState
    rw [hl]
    exact ⟨rfl, rfl⟩

/-- Witness for `store_queue_execution` at concrete inputs: a fulfilled
chain executes the mutator, a rejected chain returns the old error. -/
theorem store_queue_execution_witness :
    ((withState (⟨⟨[]⟩, none⟩ : Store StateDoc) fun s => .ok (s, (7 : ℕ))).2
        = (Except.ok (7 : ℕ)) ∧
      (readState (⟨⟨[]⟩, none⟩ : Store StateDoc) fun _ => .ok (3 : ℕ)).2
        = .ok 3) ∧
    withState (⟨⟨[]⟩, some "boom"⟩ : Store StateDoc)
        (fun s => .ok (s, (7 : ℕ))) = (⟨⟨[]⟩, some "boom"⟩, .error "boom") := by
  constructor
  · have h := (store_queue_execution StateDoc ℕ ℕ ⟨⟨[]⟩, none⟩
      (fun s => .ok (s, 7)) (fun _ => .ok 3)).1 rfl
    exact ⟨h.1, h.2⟩
  · exact ((store_queue_execution StateDoc ℕ ℕ ⟨⟨[]⟩, some "boom"⟩
      (fun s => .ok (s, 7)) (fun _ => .ok 3)).2 "boom" rfl).1

/-- C6: whenever a `withState` call does not succeed — the mutator threw
(or the chain was already rejected) — the backing state file is unchanged:
`_write` runs only after the mutator returned, so no partial mutation is
persisted. -/
theorem withState_error_file_unchanged (α β : Type) (σ : Store α)
    (m : α → Except Err (α × β)) (e : Err)
    (h : (withState σ m).2 = .error e) :
    (withState σ m).1.file = σ.file := by
  unfold withState at *
  cases hl : σ.lockErr with
  | some e₁ => rfl
  | none =>
    cases hm : m σ.file with
    | ok p =>
      obtain ⟨s, v⟩ := p
      rw [hl, hm] at h
      simp at h
    | error e₁ =>
      rfl

/-- Witness for `withState_error_file_unchanged`: a mutator that throws
midway leaves the document as it was. -/
theorem withState_error_file_unchanged_witness :
    (withState (⟨⟨[]⟩, none⟩ : Store StateDoc)
        fun _ => (.error "disk_error" : Except Err (StateDoc × ℕ))).1.file
      = (⟨[]⟩ : StateDoc) :=
  withState_error_file_unchanged StateDoc ℕ ⟨⟨[]⟩, none⟩
    (fun _ => .error "disk_error") "disk_error" rfl

/-- Any upload object `createUpload` returns successfully is the decorated
fresh base metadata. -/
theorem createUpload_ok_shape (σ : MgrState) (uk : String) (args : CreateArgs)
    (uploadId now : String) (u : UploadMeta)
    (h : (createUpload σ uk args uploadId now).2 = .ok u) :
    u = decorateUpload (baseMetadata uk args uploadId now) := by
  unfold createUpload at h
  by_cases hp : (baseMetadata uk args uploadId now).persist
  · simp only [hp, if_true] at h
    split at h
    · cases h
    · injection h with h
      exact h.symm
  · simp only [hp, if_false, Bool.false_eq_true] at h
    injection h with h
    exact h.symm

/-! ## Claim C5: size validation of upload creation -/

/-- C5: the upload-creation operation (the `POST /api/uploads` handler in
front of `UploadManager.createUpload`) rejects `fileSize ≤ 0` or
`chunkSize ≤ 0` with `invalid_sizes`, leaving the manager state untouched,
and any upload it successfully creates has
`totalChunks = ⌈fileSize / chunkSize⌉`. -/
theorem postUploads_size_validation (σ : MgrState) (uk fn : String)
    (size chunk : ℚ) (persist : Bool) (uploadId now : String) :
    ((size ≤ 0 ∨ chunk ≤ 0) →
      postUploads σ (some uk) (some fn) (some size) (some chunk) persist
          uploadId now = (σ, .error "invalid_sizes")) ∧
    (0 < size → 0 < chunk → ∀ u,
      (postUploads σ (some uk) (some fn) (some size) (some chunk) persist
          uploadId now).2 = .ok u →
      u.totalChunks = ⌈size / chunk⌉) := by
  constructor
  · intro hbad
    simp only [postUploads, if_pos hbad]
  · intro hs hc u hok
    have hgood : ¬ (size ≤ 0 ∨ chunk ≤ 0) := by
      push_neg
      exact ⟨hs, hc⟩
    simp only [postUploads, if_neg hgood] at hok
    have h₁ := createUpload_ok_shape σ uk
      ⟨fn, size, chunk, persist⟩ uploadId now u hok
    rw [h₁]
    rfl

/-- Witness for `postUploads_size_validation`: `fileSize = -1` is rejected
with `invalid_sizes`; `fileSize = 10, chunkSize = 6` yields an upload with
`totalChunks = ⌈10/6⌉ = 2`. -/
theorem postUploads_size_validation_witness :
    (postUploads ⟨⟨⟨[]⟩, none⟩, []⟩ (some "u") (some "f.bin")
        (some (-1 : ℚ)) (some (6 : ℚ)) true "up1" "t0"
      = (⟨⟨⟨[]⟩, none⟩, []⟩, .error "invalid_sizes")) ∧
    (decorateUpload (baseMetadata "u"
        ⟨"f.bin", (10 : ℚ), (6 : ℚ), false⟩ "up1" "t0")).totalChunks = 2 := by
  constructor
  · exact (postUploads_size_validation ⟨⟨⟨[]⟩, none⟩, []⟩ "u" "f.bin"
      (-1) 6 true "up1" "t0").1 (Or.inl (by norm_num))
  · have h := (postUploads_size_validation ⟨⟨⟨[]⟩, none⟩, []⟩ "u" "f.bin"
      10 6 false "up1" "t0").2 (by norm_num) (by norm_num)
      (decorateUpload (baseMetadata "u" ⟨"f.bin", 10, 6, false⟩ "up1" "t0")) rfl
    rw [h]
    rw [Int.ceil_eq_iff]
    norm_num

/-! ## Claim C2: assembly failure on a missing chunk -/

/-- C2, evaluated at the failing input: with part `0.part` present (bytes
`[7, 8]`) and part `1.part` absent, `assembleFile` does reject with
`missing_chunk_1` — but the final path `fin/u1-a.txt` now holds a partial
output file containing chunk 0's bytes, because the write stream was opened
directly at the final path and `destroy()` does not unlink it.  The claim
(and spec §4.3/§4.4) requires that no partial file be left at the final
path. -/
theorem assembleFile_missing_chunk_leaves_partial_file :
    (assembleFile ⟨[(("u1", 0), [7, 8])], []⟩ "updir" "fin" c2Upload).2
        = .error "missing_chunk_1" ∧
    mget (assembleFile ⟨[(("u1", 0), [7, 8])], []⟩ "updir" "fin"
        c2Upload).1.finalFiles "fin/u1-a.txt" = some [7, 8] := by
  constructor
  · rfl
  · rfl

/-! ## Claim C4: which derived fields are persisted -/

/-- C4 counterexample: immediately after a persistent `createUpload`, the
upload metadata stored in the state document contains a `receivedCount`
field (value `0`) — `baseMetadata` writes it — contradicting the claim
that `receivedCount` is never written into the persisted state document. -/
theorem stored_upload_has_receivedCount_cex :
    ((mget ((createUpload ⟨⟨⟨[]⟩, none⟩, []⟩ "u"
          ⟨"f.bin", 10, 6, true⟩ "up1" "t0").1.store.file.users) "u").map
        fun user => (mget user.uploads "up1").map fun u => u.receivedCount)
      = some (some (some 0)) := by
  rfl

/-! ## Claim C1: identifyUser with an unknown requested key -/

/-- C1 counterexample: starting from an empty state, `identifyUser` with
the unknown requested key `"LOSTKEY1"` returns
`{ userKey: "LOSTKEY1", created: true }` — the requested key IS honored
(the fresh-id stream is never consulted: it is empty here), contradicting
the claim that the returned key is a newly allocated one different from
`requestedKey`. -/
theorem identifyUser_honors_unknown_key_cex :
    (identifyUser ⟨⟨⟨[]⟩, none⟩, []⟩ (some "LOSTKEY1") [] "t0").2
      = .ok { userKey := "LOSTKEY1", created := true } := by
  rfl

/-- C1 amended: when `requestedKey` is provided but unknown (and the store
chain is healthy), `identifyUser` keeps the requested key as the
candidate, creates a fresh user record stored under `requestedKey` itself,
and returns `{ userKey: requestedKey, created: true }`: an unknown
requested key is honored as a brand-new user key. -/
theorem identifyUser_unknown_key_honored (σ : MgrState) (k : String)
    (freshIds : List String) (now : String)
    (hlock : σ.store.lockErr = none)
    (hmiss : mget σ.store.file.users k = none) :
    (identifyUser σ (some k) freshIds now).2
        = .ok { userKey := k, created := true } ∧
    mget ((identifyUser σ (some k) freshIds now).1.store.file.users) k
        = some { key := k, createdAt := now, uploads := [], history := [] } := by
  have hsome : (mget σ.store.file.users k).isSome = false := by
    rw [hmiss]
    rfl
  unfold identifyUser
  simp only [readState, hlock, hsome]
  unfold withState
  simp only [hlock]
  unfold identifyMutator
  simp only [hsome, Bool.false_eq_true, if_false, Except.bind, mget_mset_self]
  exact ⟨trivial, trivial⟩

/-- Witness for `identifyUser_unknown_key_honored` on the empty state. -/
theorem identifyUser_unknown_key_honored_witness :
    (identifyUser ⟨⟨⟨[]⟩, none⟩, []⟩ (some "K1") ["G1"] "t0").2
        = .ok { userKey := "K1", created := true } ∧
    mget ((identifyUser ⟨⟨⟨[]⟩, none⟩, []⟩ (some "K1") ["G1"] "t0").1.store.file.users)
        "K1" = some { key := "K1", createdAt := "t0", uploads := [], history := [] } :=
  identifyUser_unknown_key_honored ⟨⟨⟨[]⟩, none⟩, []⟩ "K1" ["G1"] "t0" rfl rfl

/-! ## markChunk lemmas -/

theorem markChunk_out_of_range (u : UploadMeta) (i : ℤ) (now : String)
    (h : i < 0 ∨ u.totalChunks ≤ i) :
    markChunk u i now = .error "chunk_out_of_range" := by
  unfold markChunk
  rw [if_pos h]

theorem markChunk_ok_fields (u u₁ : UploadMeta) (i : ℤ) (now : String)
    (h : markChunk u i now = .ok u₁) :
    u₁.totalChunks = u.totalChunks ∧ u₁.receivedChunks.contains i = true ∧
    ¬ (i < 0 ∨ u.totalChunks ≤ i) ∧
    u₁.receivedCount = some (u₁.receivedChunks.length : ℤ) ∧
    u₁.missingChunks = u.missingChunks := by
  unfold markChunk at h
  by_cases hg : i < 0 ∨ u.totalChunks ≤ i
  · rw [if_pos hg] at h
    cases h
  · rw [if_neg hg] at h
    injection h with h
    subst h
    refine ⟨rfl, ?_, hg, rfl, rfl⟩
    by_cases hmem : i ∈ u.receivedChunks
    · simp [hmem]
    · simp [hmem]

theorem markChunk_remark (u u₁ : UploadMeta) (i : ℤ) (now₁ now₂ : String)
    (h : markChunk u i now₁ = .ok u₁) :
    ∃ u₂, markChunk u₁ i now₂ = .ok u₂ ∧
      u₂.receivedChunks = u₁.receivedChunks ∧
      u₂.receivedCount = u₁.receivedCount ∧
      u₂.totalChunks = u₁.totalChunks := by
  obtain ⟨htc, hcont, hg, hcount, _⟩ := markChunk_ok_fields u u₁ i now₁ h
  have hg₁ : ¬ (i < 0 ∨ u₁.totalChunks ≤ i) := by
    rw [htc]
    exact hg
  refine ⟨({ u₁ with
              receivedCount := some (u₁.receivedChunks.length : ℤ),
              status := "active",
              updatedAt := now₂ }), ?_, rfl, hcount.symm, rfl⟩
  unfold markChunk
  rw [if_neg hg₁]
  have hmem : i ∈ u₁.receivedChunks := by
    simpa using hcont
  simp [hmem]

/-- The `ephLookup` never inspects the store component. -/
theorem ephLookup_store_irrel (σ : MgrState) (s : Store StateDoc)
    (uk uid : String) :
    ephLookup ⟨s, σ.ephemeral⟩ uk uid = ephLookup σ uk uid := rfl

/-! ## Claim C9: recordChunk atomicity on out-of-range index -/

/-- C9: with a healthy store chain, `recordChunk` on an index outside
`[0, totalChunks)` rejects with `chunk_out_of_range` and leaves the stored
metadata (and the whole persisted document) exactly as it was: the bounds
guard in `_markChunk` throws before any mutation, the in-memory path
propagates the throw untouched, and on the persistent path the failed
transaction never writes the document back. -/
theorem recordChunk_out_of_range_atomic (σ : MgrState) (uk uid : String)
    (i : ℤ) (now : String) (u : UploadMeta)
    (hpeek : peekUpload σ uk uid = some u)
    (hlock : σ.store.lockErr = none)
    (hrange : i < 0 ∨ u.totalChunks ≤ i) :
    (recordChunk σ uk uid i now).2 = .error "chunk_out_of_range" ∧
    (recordChunk σ uk uid i now).1.store.file = σ.store.file ∧
    peekUpload (recordChunk σ uk uid i now).1 uk uid = some u := by
  unfold peekUpload at hpeek ⊢
  unfold recordChunk
  cases he : ephLookup σ uk uid with
  | some p =>
    obtain ⟨eu, u₀⟩ := p
    rw [he] at hpeek
    injection hpeek with hpeek
    have hpeek₁ : u₀ = u := hpeek
    have hrange₀ : i < 0 ∨ u₀.totalChunks ≤ i := by
      rw [hpeek₁]
      exact hrange
    dsimp only
    rw [markChunk_out_of_range u₀ i now hrange₀]
    refine ⟨rfl, rfl, ?_⟩
    rw [he]
    dsimp only
    rw [hpeek₁]
  | none =>
    rw [he] at hpeek
    dsimp only at hpeek
    cases hu : mget σ.store.file.users uk with
    | none =>
      rw [hu] at hpeek
      dsimp only at hpeek
      cases hpeek
    | some user =>
      rw [hu] at hpeek
      dsimp only at hpeek
      dsimp only
      unfold withState recordChunkMutator
      rw [hlock]
      dsimp only
      rw [hu]
      dsimp only
      rw [hpeek]
      dsimp only
      rw [markChunk_out_of_range u i now hrange]
      dsimp only
      refine ⟨rfl, rfl, ?_⟩
      rw [ephLookup_store_irrel]
      rw [he]
      dsimp only
      rw [hu]
      dsimp only
      rw [hpeek]

theorem recordChunk_out_of_range_atomic_witness :
    (recordChunk c9State "u" "f1" 5 "t1").2 = .error "chunk_out_of_range" ∧
    (recordChunk c9State "u" "f1" 5 "t1").1.store.file = c9State.store.file ∧
    peekUpload (recordChunk c9State "u" "f1" 5 "t1").1 "u" "f1"
      = some c9Upload :=
  recordChunk_out_of_range_atomic c9State "u" "f1" 5 "t1" c9Upload rfl rfl
    (Or.inr (by decide))

/-! ## recordChunk forward equations and claim C7 -/

theorem decorate_receivedChunks (u : UploadMeta) :
    (decorateUpload u).receivedChunks = u.receivedChunks := rfl

theorem missingChunksOf_congr (u₁ u₂ : UploadMeta)
    (htc : u₂.totalChunks = u₁.totalChunks)
    (hrc : u₂.receivedChunks = u₁.receivedChunks) :
    missingChunksOf u₂ = missingChunksOf u₁ := by
  unfold missingChunksOf
  rw [htc, hrc]

/-- The `recordChunk` on the in-memory path, when the mark succeeds. -/
theorem recordChunk_mem_eq (σ : MgrState) (uk uid : String) (i : ℤ)
    (now : String) (eu : EphUser) (u₀ u₁ : UploadMeta)
    (he : ephLookup σ uk uid = some (eu, u₀))
    (hm : markChunk u₀ i now = .ok u₁) :
    recordChunk σ uk uid i now =
      ({ σ with ephemeral := mset σ.ephemeral uk ⟨mset eu.uploads uid u₁⟩ },
       .ok ⟨decorateUpload u₁,
            ((decorateUpload u₁).missingChunks.getD []).isEmpty⟩) := by
  unfold recordChunk
  rw [he]
  dsimp only
  rw [hm]

/-- The `recordChunk` on the persistent path, when the lock is healthy, the
upload exists, and the mark succeeds. -/
theorem recordChunk_pers_eq (σ : MgrState) (uk uid : String) (i : ℤ)
    (now : String) (user : UserRecord) (u₀ u₁ : UploadMeta)
    (he : ephLookup σ uk uid = none)
    (hlock : σ.store.lockErr = none)
    (hu : mget σ.store.file.users uk = some user)
    (hup : mget user.uploads uid = some u₀)
    (hm : markChunk u₀ i now = .ok u₁) :
    recordChunk σ uk uid i now =
      (⟨⟨⟨mset σ.store.file.users uk
            ({ user with uploads := mset user.uploads uid u₁ })⟩, none⟩,
        σ.ephemeral⟩,
       .ok ⟨decorateUpload u₁,
            ((decorateUpload u₁).missingChunks.getD []).isEmpty⟩) := by
  unfold recordChunk
  rw [he]
  dsimp only
  unfold withState recordChunkMutator
  rw [hlock]
  dsimp only
  rw [hu]
  dsimp only
  rw [hup]
  dsimp only
  rw [hm]

/-- C7: `recordChunk` is idempotent on the chunk index.  If a call succeeds,
an immediate second call with the same index also succeeds and leaves both
the returned upload's and the stored metadata's `receivedChunks` and
`receivedCount` exactly as after the first call (`_markChunk` skips the
insert for a present key and `Object.keys(...).length` is unchanged). -/
theorem recordChunk_idempotent (σ : MgrState) (uk uid : String) (i : ℤ)
    (now₁ now₂ : String) (r₁ : RecordResult)
    (h : (recordChunk σ uk uid i now₁).2 = .ok r₁) :
    ∃ r₂, (recordChunk (recordChunk σ uk uid i now₁).1 uk uid i now₂).2
        = .ok r₂ ∧
      r₂.upload.receivedChunks = r₁.upload.receivedChunks ∧
      r₂.upload.receivedCount = r₁.upload.receivedCount ∧
      (peekUpload (recordChunk (recordChunk σ uk uid i now₁).1 uk uid i now₂).1
          uk uid).map (fun u => u.receivedChunks)
        = (peekUpload (recordChunk σ uk uid i now₁).1 uk uid).map
            (fun u => u.receivedChunks) ∧
      (peekUpload (recordChunk (recordChunk σ uk uid i now₁).1 uk uid i now₂).1
          uk uid).map (fun u => u.receivedCount)
        = (peekUpload (recordChunk σ uk uid i now₁).1 uk uid).map
            (fun u => u.receivedCount) := by
  cases he : ephLookup σ uk uid with
  | some p =>
    obtain ⟨eu, u₀⟩ := p
    cases hm : markChunk u₀ i now₁ with
    | error e =>
      unfold recordChunk at h
      rw [he] at h
      dsimp only at h
      rw [hm] at h
      cases h
    | ok u₁ =>
      have heq := recordChunk_mem_eq σ uk uid i now₁ eu u₀ u₁ he hm
      rw [heq] at h
      dsimp only at h
      injection h with h
      obtain ⟨u₂, hm₂, hrc, hcount, htc⟩ := markChunk_remark u₀ u₁ i now₁ now₂ hm
      have he₂ : ephLookup (recordChunk σ uk uid i now₁).1 uk uid
          = some (⟨mset eu.uploads uid u₁⟩, u₁) := by
        rw [heq]
        unfold ephLookup
        dsimp only
        rw [mget_mset_self]
        dsimp only
        rw [mget_mset_self]
      have heq₂ := recordChunk_mem_eq (recordChunk σ uk uid i now₁).1 uk uid i
        now₂ ⟨mset eu.uploads uid u₁⟩ u₁ u₂ he₂ hm₂
      have hmiss : missingChunksOf u₂ = missingChunksOf u₁ :=
        missingChunksOf_congr u₁ u₂ htc hrc
      refine ⟨⟨decorateUpload u₂,
        ((decorateUpload u₂).missingChunks.getD []).isEmpty⟩, ?_, ?_, ?_, ?_, ?_⟩
      · rw [heq₂]
      · rw [← h]
        unfold decorateUpload
        dsimp only
        rw [hrc]
      · rw [← h]
        unfold decorateUpload
        dsimp only
        rw [hmiss, htc]
      · rw [heq₂]
        unfold peekUpload
        rw [heq]
        unfold ephLookup
        dsimp only
        rw [mget_mset_self]
        dsimp only
        rw [mget_mset_self]
        dsimp only
        rw [mget_mset_self]
        dsimp only
        rw [mget_mset_self]
        simp [hrc]
      · rw [heq₂]
        unfold peekUpload
        rw [heq]
        unfold ephLookup
        dsimp only
        rw [mget_mset_self]
        dsimp only
        rw [mget_mset_self]
        dsimp only
        rw [mget_mset_self]
        dsimp only
        rw [mget_mset_self]
        simp [hcount]
  | none =>
    unfold recordChunk at h
    rw [he] at h
    dsimp only at h
    unfold withState recordChunkMutator at h
    cases hlock : σ.store.lockErr with
    | some e =>
      rw [hlock] at h
      cases h
    | none =>
      rw [hlock] at h
      dsimp only at h
      cases hu : mget σ.store.file.users uk with
      | none =>
        rw [hu] at h
        cases h
      | some user =>
        rw [hu] at h
        dsimp only at h
        cases hup : mget user.uploads uid with
        | none =>
          rw [hup] at h
          cases h
        | some u₀ =>
          rw [hup] at h
          dsimp only at h
          cases hm : markChunk u₀ i now₁ with
          | error e =>
            rw [hm] at h
            cases h
          | ok u₁ =>
            rw [hm] at h
            dsimp only at h
            injection h with h
            have heq := recordChunk_pers_eq σ uk uid i now₁ user u₀ u₁ he
              hlock hu hup hm
            obtain ⟨u₂, hm₂, hrc, hcount, htc⟩ :=
              markChunk_remark u₀ u₁ i now₁ now₂ hm
            have he₂ : ephLookup (recordChunk σ uk uid i now₁).1 uk uid
                = none := by
              rw [heq]
              rw [ephLookup_store_irrel]
              exact he
            have heq₂ := recordChunk_pers_eq (recordChunk σ uk uid i now₁).1
              uk uid i now₂ ({ user with uploads := mset user.uploads uid u₁ })
              u₁ u₂ he₂ (by rw [heq]) (by rw [heq]; exact mget_mset_self _ _ _)
              (mget_mset_self _ _ _) hm₂
            have hmiss : missingChunksOf u₂ = missingChunksOf u₁ :=
              missingChunksOf_congr u₁ u₂ htc hrc
            refine ⟨⟨decorateUpload u₂,
              ((decorateUpload u₂).missingChunks.getD []).isEmpty⟩,
              ?_, ?_, ?_, ?_, ?_⟩
            · rw [heq₂]
            · rw [← h]
              unfold decorateUpload
              dsimp only
              rw [hrc]
            · rw [← h]
              unfold decorateUpload
              dsimp only
              rw [hmiss, htc]
            · have hpeek₂ : peekUpload
                  (recordChunk (recordChunk σ uk uid i now₁).1 uk uid i now₂).1
                  uk uid = some u₂ := by
                rw [heq₂]
                unfold peekUpload
                dsimp only
                rw [ephLookup_store_irrel, he₂]
                dsimp only
                rw [mget_mset_self]
                dsimp only
                exact mget_mset_self _ _ _
              have hpeek₁ : peekUpload (recordChunk σ uk uid i now₁).1 uk uid
                  = some u₁ := by
                rw [heq]
                unfold peekUpload
                dsimp only
                rw [ephLookup_store_irrel, he]
                dsimp only
                rw [mget_mset_self]
                dsimp only
                exact mget_mset_self _ _ _
              rw [hpeek₂, hpeek₁]
              simp [hrc]
            · have hpeek₂ : peekUpload
                  (recordChunk (recordChunk σ uk uid i now₁).1 uk uid i now₂).1
                  uk uid = some u₂ := by
                rw [heq₂]
                unfold peekUpload
                dsimp only
                rw [ephLookup_store_irrel, he₂]
                dsimp only
                rw [mget_mset_self]
                dsimp only
                exact mget_mset_self _ _ _
              have hpeek₁ : peekUpload (recordChunk σ uk uid i now₁).1 uk uid
                  = some u₁ := by
                rw [heq]
                unfold peekUpload
                dsimp only
                rw [ephLookup_store_irrel, he]
                dsimp only
                rw [mget_mset_self]
                dsimp only
                exact mget_mset_self _ _ _
              rw [hpeek₂, hpeek₁]
              simp [hcount]

/-- Witness for `recordChunk_idempotent`: record chunk 0 twice. -/
theorem recordChunk_idempotent_witness :
    ∃ r₂, (recordChunk (recordChunk c7State "u" "f1" 0 "t1").1
        "u" "f1" 0 "t2").2 = .ok r₂ ∧
      r₂.upload.receivedChunks
        = (RecordResult.mk (decorateUpload c7Marked) false).upload.receivedChunks ∧
      r₂.upload.receivedCount
        = (RecordResult.mk (decorateUpload c7Marked) false).upload.receivedCount ∧
      (peekUpload (recordChunk (recordChunk c7State "u" "f1" 0 "t1").1
          "u" "f1" 0 "t2").1 "u" "f1").map (fun u => u.receivedChunks)
        = (peekUpload (recordChunk c7State "u" "f1" 0 "t1").1 "u" "f1").map
            (fun u => u.receivedChunks) ∧
      (peekUpload (recordChunk (recordChunk c7State "u" "f1" 0 "t1").1
          "u" "f1" 0 "t2").1 "u" "f1").map (fun u => u.receivedCount)
        = (peekUpload (recordChunk c7State "u" "f1" 0 "t1").1 "u" "f1").map
            (fun u => u.receivedCount) :=
  recordChunk_idempotent c7State "u" "f1" 0 "t1" "t2"
    (RecordResult.mk (decorateUpload c7Marked) false) rfl

/-! ## pushHistory lemmas and claim C8 -/

theorem pushHistory_head (h : List HistoryEntry) (e : HistoryEntry) :
    (pushHistory h e).head? = some e := by
  unfold pushHistory
  dsimp only
  split
  · rfl
  · rfl

theorem pushHistory_length_le (h : List HistoryEntry) (e : HistoryEntry) :
    (pushHistory h e).length ≤ 200 := by
  unfold pushHistory
  dsimp only
  split
  · rw [List.length_take]
    exact min_le_left _ _
  · next hlen =>
    simp only [List.length_cons] at hlen ⊢
    omega

/-- The `finalizeUpload` on the in-memory path with a healthy chain. -/
theorem finalizeUpload_mem_eq (σ : MgrState) (uk uid now : String)
    (eu : EphUser) (u : UploadMeta)
    (he : ephLookup σ uk uid = some (eu, u))
    (hlock : σ.store.lockErr = none) :
    finalizeUpload σ uk uid now =
      (⟨⟨⟨mset (ensureUserRecord σ.store.file uk now).1.users uk
            ({ (ensureUserRecord σ.store.file uk now).2 with
                history := pushHistory
                  (ensureUserRecord σ.store.file uk now).2.history
                  (toHistoryEntry
                    ({ u with status := "completed", completedAt := some now })
                    now) })⟩, none⟩,
        mset σ.ephemeral uk ⟨mdel eu.uploads uid⟩⟩,
       .ok (decorateUpload
         ({ u with status := "completed", completedAt := some now }))) := by
  unfold finalizeUpload
  rw [he]
  dsimp only
  unfold withState
  rw [hlock]

/-- The `finalizeUpload` on the persistent path with a healthy chain. -/
theorem finalizeUpload_pers_eq (σ : MgrState) (uk uid now : String)
    (user : UserRecord) (u : UploadMeta)
    (he : ephLookup σ uk uid = none)
    (hlock : σ.store.lockErr = none)
    (hu : mget σ.store.file.users uk = some user)
    (hup : mget user.uploads uid = some u) :
    finalizeUpload σ uk uid now =
      (⟨⟨⟨mset σ.store.file.users uk
            ({ user with
                history := pushHistory user.history
                  (toHistoryEntry
                    ({ u with status := "completed", completedAt := some now })
                    now),
                uploads := mdel user.uploads uid })⟩, none⟩,
        σ.ephemeral⟩,
       .ok (decorateUpload
         ({ u with status := "completed", completedAt := some now }))) := by
  unfold finalizeUpload
  rw [he]
  dsimp only
  unfold withState
  rw [hlock]
  dsimp only
  rw [hu]
  dsimp only
  rw [hup]

/-- The `removeUpload` on the in-memory path with `forget = true`: the store is
never touched. -/
theorem removeUpload_mem_forget_eq (σ : MgrState) (uk uid now : String)
    (eu : EphUser) (u : UploadMeta)
    (he : ephLookup σ uk uid = some (eu, u)) :
    removeUpload σ uk uid true now =
      (⟨σ.store, mset σ.ephemeral uk ⟨mdel eu.uploads uid⟩⟩,
       .ok (decorateUpload u)) := by
  unfold removeUpload
  rw [he]
  rfl

/-- The `removeUpload` on the in-memory path with `forget = false` and a healthy
chain. -/
theorem removeUpload_mem_keep_eq (σ : MgrState) (uk uid now : String)
    (eu : EphUser) (u : UploadMeta)
    (he : ephLookup σ uk uid = some (eu, u))
    (hlock : σ.store.lockErr = none) :
    removeUpload σ uk uid false now =
      (⟨⟨⟨mset (ensureUserRecord σ.store.file uk now).1.users uk
            ({ (ensureUserRecord σ.store.file uk now).2 with
                history := pushHistory
                  (ensureUserRecord σ.store.file uk now).2.history
                  (toHistoryEntry u now) })⟩, none⟩,
        mset σ.ephemeral uk ⟨mdel eu.uploads uid⟩⟩,
       .ok (decorateUpload u)) := by
  unfold removeUpload
  rw [he]
  dsimp only
  unfold withState
  rw [hlock]
  rfl

/-- The `removeUpload` on the persistent path with a healthy chain. -/
theorem removeUpload_pers_eq (σ : MgrState) (uk uid : String) (forget : Bool)
    (now : String) (user : UserRecord) (u : UploadMeta)
    (he : ephLookup σ uk uid = none)
    (hlock : σ.store.lockErr = none)
    (hu : mget σ.store.file.users uk = some user)
    (hup : mget user.uploads uid = some u) :
    removeUpload σ uk uid forget now =
      (⟨⟨⟨mset σ.store.file.users uk
            ({ user with
                history := if forget then user.history
                  else pushHistory user.history (toHistoryEntry u now),
                uploads := mdel user.uploads uid })⟩, none⟩,
        σ.ephemeral⟩,
       .ok (decorateUpload u)) := by
  unfold removeUpload
  rw [he]
  dsimp only
  unfold withState
  rw [hlock]
  dsimp only
  rw [hu]
  dsimp only
  rw [hup]

/-- C8: after a successful `finalizeUpload` (and after a successful
`removeUpload` with `forget = false`), the corresponding history entry sits
at index 0 of the user's persisted history and that history holds at most
200 entries; `removeUpload` with `forget = true` leaves the user's history
untouched. -/
theorem history_newest_first_capped (σ : MgrState) (uk uid now : String) :
    (∀ d, (finalizeUpload σ uk uid now).2 = .ok d →
      ∃ user, mget ((finalizeUpload σ uk uid now).1.store.file.users) uk
          = some user ∧
        user.history.length ≤ 200 ∧
        user.history.head? = some ⟨d.id, d.fileName, d.fileSize, now,
          d.chunkSize, d.totalChunks, d.persist⟩) ∧
    (∀ d, (removeUpload σ uk uid false now).2 = .ok d →
      ∃ user, mget ((removeUpload σ uk uid false now).1.store.file.users) uk
          = some user ∧
        user.history.length ≤ 200 ∧
        user.history.head? = some ⟨d.id, d.fileName, d.fileSize,
          d.completedAt.getD now, d.chunkSize, d.totalChunks, d.persist⟩) ∧
    (∀ d, (removeUpload σ uk uid true now).2 = .ok d →
      (mget ((removeUpload σ uk uid true now).1.store.file.users) uk).map
          (fun q => q.history)
        = (mget σ.store.file.users uk).map (fun q => q.history)) := by
  refine ⟨?_, ?_, ?_⟩
  · intro d hd
    cases he : ephLookup σ uk uid with
    | some p =>
      obtain ⟨eu, u⟩ := p
      cases hlock : σ.store.lockErr with
      | some e =>
        unfold finalizeUpload at hd
        rw [he] at hd
        dsimp only at hd
        unfold withState at hd
        rw [hlock] at hd
        cases hd
      | none =>
        have heq := finalizeUpload_mem_eq σ uk uid now eu u he hlock
        rw [heq] at hd ⊢
        dsimp only at hd ⊢
        injection hd with hd
        refine ⟨_, mget_mset_self _ _ _, pushHistory_length_le _ _, ?_⟩
        rw [pushHistory_head]
        rw [← hd]
        rfl
    | none =>
      unfold finalizeUpload at hd
      rw [he] at hd
      dsimp only at hd
      cases hlock : σ.store.lockErr with
      | some e =>
        unfold withState at hd
        rw [hlock] at hd
        cases hd
      | none =>
        unfold withState at hd
        rw [hlock] at hd
        dsimp only at hd
        cases hu : mget σ.store.file.users uk with
        | none =>
          rw [hu] at hd
          cases hd
        | some user =>
          rw [hu] at hd
          dsimp only at hd
          cases hup : mget user.uploads uid with
          | none =>
            rw [hup] at hd
            cases hd
          | some u =>
            rw [hup] at hd
            dsimp only at hd
            injection hd with hd
            have heq := finalizeUpload_pers_eq σ uk uid now user u he hlock hu hup
            rw [heq]
            dsimp only
            refine ⟨_, mget_mset_self _ _ _, pushHistory_length_le _ _, ?_⟩
            rw [pushHistory_head]
            rw [← hd]
            rfl
  · intro d hd
    cases he : ephLookup σ uk uid with
    | some p =>
      obtain ⟨eu, u⟩ := p
      cases hlock : σ.store.lockErr with
      | some e =>
        unfold removeUpload at hd
        rw [he] at hd
        dsimp only at hd
        unfold withState at hd
        rw [hlock] at hd
        cases hd
      | none =>
        have heq := removeUpload_mem_keep_eq σ uk uid now eu u he hlock
        rw [heq] at hd ⊢
        dsimp only at hd ⊢
        injection hd with hd
        refine ⟨_, mget_mset_self _ _ _, pushHistory_length_le _ _, ?_⟩
        rw [pushHistory_head]
        rw [← hd]
        rfl
    | none =>
      unfold removeUpload at hd
      rw [he] at hd
      dsimp only at hd
      cases hlock : σ.store.lockErr with
      | some e =>
        unfold withState at hd
        rw [hlock] at hd
        cases hd
      | none =>
        unfold withState at hd
        rw [hlock] at hd
        dsimp only at hd
        cases hu : mget σ.store.file.users uk with
        | none =>
          rw [hu] at hd
          cases hd
        | some user =>
          rw [hu] at hd
          dsimp only at hd
          cases hup : mget user.uploads uid with
          | none =>
            rw [hup] at hd
            cases hd
          | some u =>
            rw [hup] at hd
            dsimp only at hd
            injection hd with hd
            have heq := removeUpload_pers_eq σ uk uid false now user u he hlock hu hup
            rw [heq]
            dsimp only
            refine ⟨_, mget_mset_self _ _ _, ?_, ?_⟩
            · simp only [Bool.false_eq_true, if_false]
              exact pushHistory_length_le _ _
            · simp only [Bool.false_eq_true, if_false]
              rw [pushHistory_head]
              rw [← hd]
              rfl
  · intro d hd
    cases he : ephLookup σ uk uid with
    | some p =>
      obtain ⟨eu, u⟩ := p
      have heq := removeUpload_mem_forget_eq σ uk uid now eu u he
      rw [heq]
    | none =>
      unfold removeUpload at hd
      rw [he] at hd
      dsimp only at hd
      cases hlock : σ.store.lockErr with
      | some e =>
        unfold withState at hd
        rw [hlock] at hd
        cases hd
      | none =>
        unfold withState at hd
        rw [hlock] at hd
        dsimp only at hd
        cases hu : mget σ.store.file.users uk with
        | none =>
          rw [hu] at hd
          cases hd
        | some user =>
          rw [hu] at hd
          dsimp only at hd
          cases hup : mget user.uploads uid with
          | none =>
            rw [hup] at hd
            cases hd
          | some u =>
            have heq := removeUpload_pers_eq σ uk uid true now user u he hlock hu hup
            rw [heq]
            dsimp only
            rw [mget_mset_self]
            simp

/-- Witness for `history_newest_first_capped`, applying all three parts at
concrete states. -/
theorem history_newest_first_capped_witness :
    (∃ user, mget ((finalizeUpload c8State "u" "f1" "t1").1.store.file.users)
        "u" = some user ∧
      user.history.length ≤ 200 ∧
      user.history.head? = some ⟨"f1", "a", 10, "t1", 6, 2, true⟩) ∧
    (∃ user, mget ((removeUpload c8State "u" "f1" false "t1").1.store.file.users)
        "u" = some user ∧
      user.history.length ≤ 200 ∧
      user.history.head? = some ⟨"f1", "a", 10, "t1", 6, 2, true⟩) ∧
    ((mget ((removeUpload c8State "u" "f1" true "t1").1.store.file.users) "u").map
        (fun q => q.history)
      = (mget c8State.store.file.users "u").map (fun q => q.history)) := by
  refine ⟨?_, ?_, ?_⟩
  · exact (history_newest_first_capped c8State "u" "f1" "t1").1
      (decorateUpload c8Completed) rfl
  · exact (history_newest_first_capped c8State "u" "f1" "t1").2.1
      (decorateUpload c8Upload) rfl
  · exact (history_newest_first_capped c8State "u" "f1" "t1").2.2
      (decorateUpload c8Upload) rfl

/-! ## Claim C4 (amended): missingChunks is never persisted -/

theorem noStored_mset (s : StateDoc) (uk : String) (user : UserRecord)
    (hs : noStoredMissingChunks s)
    (hu : ∀ q ∈ user.uploads, (q.2).missingChunks = none) :
    noStoredMissingChunks ⟨mset s.users uk user⟩ := by
  intro p hp q hq
  rcases mem_mset hp with h | h
  · rw [h] at hq
    exact hu q hq
  · exact hs p h q hq

theorem uploads_mset_ok (m : List (String × UploadMeta)) (uid : String)
    (u : UploadMeta)
    (hm : ∀ q ∈ m, (q.2).missingChunks = none) (hu : u.missingChunks = none) :
    ∀ q ∈ mset m uid u, (q.2).missingChunks = none := by
  intro q hq
  rcases mem_mset hq with h | h
  · rw [h]
    exact hu
  · exact hm q h

theorem uploads_mdel_ok (m : List (String × UploadMeta)) (uid : String)
    (hm : ∀ q ∈ m, (q.2).missingChunks = none) :
    ∀ q ∈ mdel m uid, (q.2).missingChunks = none :=
  fun q hq => hm q (mem_mdel hq)

theorem stored_upload_ok (s : StateDoc) (uk uid : String) (user : UserRecord)
    (u : UploadMeta) (hs : noStoredMissingChunks s)
    (hu : mget s.users uk = some user) (hup : mget user.uploads uid = some u) :
    u.missingChunks = none :=
  hs (uk, user) (mget_some_mem hu) (uid, u) (mget_some_mem hup)

theorem ensureUserRecord_ok (s : StateDoc) (uk now : String)
    (hs : noStoredMissingChunks s) :
    noStoredMissingChunks (ensureUserRecord s uk now).1 ∧
    (∀ q ∈ (ensureUserRecord s uk now).2.uploads, (q.2).missingChunks = none) := by
  unfold ensureUserRecord
  cases hu : mget s.users uk with
  | some user =>
    exact ⟨hs, fun q hq => hs (uk, user) (mget_some_mem hu) q hq⟩
  | none =>
    constructor
    · refine noStored_mset s uk _ hs ?_
      intro q hq
      simp at hq
    · intro q hq
      simp at hq

/-- Preservation of the invariant by a `withState` transaction whose
mutator preserves it. -/
theorem withState_preserves_inv (σ : Store StateDoc)
    (m : StateDoc → Except Err (StateDoc × β))
    (hσ : noStoredMissingChunks σ.file)
    (hm : ∀ s v, m σ.file = .ok (s, v) → noStoredMissingChunks s) :
    noStoredMissingChunks (withState σ m).1.file := by
  unfold withState
  cases hl : σ.lockErr with
  | some e => exact hσ
  | none =>
    cases hr : m σ.file with
    | ok p =>
      obtain ⟨s, v⟩ := p
      exact hm s v hr
    | error e => exact hσ

/-- The `readState` never changes the backing file. -/
theorem readState_file (σ : Store StateDoc) (sel : StateDoc → Except Err β) :
    (readState σ sel).1.file = σ.file := by
  unfold readState
  cases hl : σ.lockErr with
  | some e => rfl
  | none =>
    cases hr : sel σ.file with
    | ok v => rfl
    | error e => rfl

/-- C4 amended: no manager operation ever stores a `missingChunks` field in
the persisted document — decorated clones are only returned, never written.
(`receivedCount`, by contrast, IS stored; see the counterexample.) -/
theorem applyOp_preserves_no_stored_missingChunks (σ : MgrState) (op : MgrOp)
    (hs : noStoredMissingChunks σ.store.file) :
    noStoredMissingChunks (applyOp σ op).store.file := by
  have hmutId : ∀ (r : Option String) (f : List String) (n : String) s v,
      identifyMutator r f n σ.store.file = .ok (s, v) →
      noStoredMissingChunks s := by
    intro r f n s v h
    unfold identifyMutator at h
    dsimp only at h
    cases hp : (match r with
      | none => genFreshId σ.store.file.users f
      | some k =>
        if (mget σ.store.file.users k).isSome then
          genFreshId σ.store.file.users f
        else .ok k) with
    | error e =>
      rw [hp] at h
      cases h
    | ok cand =>
      rw [hp] at h
      dsimp only at h
      injection h with h
      injection h with h1 h2
      subst h1
      split
      · exact hs
      · refine noStored_mset _ cand _ hs ?_
        intro q hq
        simp at hq
  cases op with
  | opIdentify r f n =>
    unfold applyOp identifyUser
    cases r with
    | none =>
      dsimp only
      split
      · exact withState_preserves_inv σ.store _ hs (hmutId none f n)
      · exact withState_preserves_inv σ.store _ hs (hmutId none f n)
    | some k =>
      cases hlock : σ.store.lockErr with
      | some e =>
        unfold readState
        rw [hlock]
        exact hs
      | none =>
        unfold readState
        rw [hlock]
        dsimp only
        cases hex : (mget σ.store.file.users k).isSome with
        | true =>
          dsimp only
          exact hs
        | false =>
          dsimp only
          split
          · exact withState_preserves_inv σ.store _ hs (hmutId (some k) f n)
          · exact withState_preserves_inv σ.store _ hs (hmutId (some k) f n)
  | opCreate uk args uid n =>
    unfold applyOp createUpload
    dsimp only
    split
    · split
      all_goals refine withState_preserves_inv σ.store _ hs ?_
      all_goals intro s v h
      all_goals injection h with h
      all_goals injection h with h1 h2
      all_goals subst h1
      all_goals
        exact noStored_mset _ uk _ (ensureUserRecord_ok σ.store.file uk n hs).1
          (uploads_mset_ok _ uid _
            (ensureUserRecord_ok σ.store.file uk n hs).2 rfl)
    · exact hs
  | opRecord uk uid i n =>
    unfold applyOp recordChunk
    dsimp only
    cases he : ephLookup σ uk uid with
    | some p =>
      obtain ⟨eu, u⟩ := p
      dsimp only
      split
      · exact hs
      · exact hs
    | none =>
      dsimp only
      refine withState_preserves_inv σ.store _ hs ?_
      intro s v h
      unfold recordChunkMutator at h
      cases hu : mget σ.store.file.users uk with
      | none =>
        rw [hu] at h
        cases h
      | some user =>
        rw [hu] at h
        dsimp only at h
        cases hup : mget user.uploads uid with
        | none =>
          rw [hup] at h
          cases h
        | some u =>
          rw [hup] at h
          dsimp only at h
          cases hmk : markChunk u i n with
          | error e =>
            rw [hmk] at h
            cases h
          | ok u₁ =>
            rw [hmk] at h
            dsimp only at h
            injection h with h
            injection h with h1 h2
            subst h1
            have hmc : u₁.missingChunks = none := by
              have h₀ := (markChunk_ok_fields u u₁ i n hmk).2.2.2.2
              rw [h₀]
              exact stored_upload_ok σ.store.file uk uid user u hs hu hup
            refine noStored_mset _ uk _ hs ?_
            refine uploads_mset_ok _ uid _ ?_ hmc
            intro q hq
            exact hs (uk, user) (mget_some_mem hu) q hq
  | opStatus uk uid st n =>
    unfold applyOp updateStatus
    dsimp only
    cases he : ephLookup σ uk uid with
    | some p =>
      obtain ⟨eu, u⟩ := p
      dsimp only
      exact hs
    | none =>
      dsimp only
      refine withState_preserves_inv σ.store _ hs ?_
      intro s v h
      cases hu : mget σ.store.file.users uk with
      | none =>
        rw [hu] at h
        cases h
      | some user =>
        rw [hu] at h
        dsimp only at h
        cases hup : mget user.uploads uid with
        | none =>
          rw [hup] at h
          cases h
        | some u =>
          rw [hup] at h
          dsimp only at h
          injection h with h
          injection h with h1 h2
          subst h1
          refine noStored_mset _ uk _ hs ?_
          refine uploads_mset_ok _ uid _ ?_ ?_
          · intro q hq
            exact hs (uk, user) (mget_some_mem hu) q hq
          · exact stored_upload_ok σ.store.file uk uid user u hs hu hup
  | opFinalize uk uid n =>
    unfold applyOp finalizeUpload
    dsimp only
    cases he : ephLookup σ uk uid with
    | some p =>
      obtain ⟨eu, u⟩ := p
      dsimp only
      split
      all_goals refine withState_preserves_inv σ.store _ hs ?_
      all_goals intro s v h
      all_goals injection h with h
      all_goals injection h with h1 h2
      all_goals subst h1
      all_goals
        exact noStored_mset _ uk _ (ensureUserRecord_ok σ.store.file uk n hs).1
          (ensureUserRecord_ok σ.store.file uk n hs).2
    | none =>
      dsimp only
      refine withState_preserves_inv σ.store _ hs ?_
      intro s v h
      cases hu : mget σ.store.file.users uk with
      | none =>
        rw [hu] at h
        cases h
      | some user =>
        rw [hu] at h
        dsimp only at h
        cases hup : mget user.uploads uid with
        | none =>
          rw [hup] at h
          cases h
        | some u =>
          rw [hup] at h
          dsimp only at h
          injection h with h
          injection h with h1 h2
          subst h1
          refine noStored_mset _ uk _ hs ?_
          refine uploads_mdel_ok _ uid ?_
          intro q hq
          exact hs (uk, user) (mget_some_mem hu) q hq
  | opRemove uk uid forget n =>
    unfold applyOp removeUpload
    dsimp only
    cases he : ephLookup σ uk uid with
    | some p =>
      obtain ⟨eu, u⟩ := p
      dsimp only
      split
      · exact hs
      · split
        all_goals refine withState_preserves_inv σ.store _ hs ?_
        all_goals intro s v h
        all_goals injection h with h
        all_goals injection h with h1 h2
        all_goals subst h1
        all_goals
          exact noStored_mset _ uk _
            (ensureUserRecord_ok σ.store.file uk n hs).1
            (ensureUserRecord_ok σ.store.file uk n hs).2
    | none =>
      dsimp only
      refine withState_preserves_inv σ.store _ hs ?_
      intro s v h
      cases hu : mget σ.store.file.users uk with
      | none =>
        rw [hu] at h
        cases h
      | some user =>
        rw [hu] at h
        dsimp only at h
        cases hup : mget user.uploads uid with
        | none =>
          rw [hup] at h
          cases h
        | some u =>
          rw [hup] at h
          dsimp only at h
          injection h with h
          injection h with h1 h2
          subst h1
          refine noStored_mset _ uk _ hs ?_
          refine uploads_mdel_ok _ uid ?_
          intro q hq
          exact hs (uk, user) (mget_some_mem hu) q hq
  | opClear uk =>
    unfold applyOp clearHistory
    dsimp only
    refine withState_preserves_inv σ.store _ hs ?_
    intro s v h
    cases hu : mget σ.store.file.users uk with
    | none =>
      rw [hu] at h
      cases h
    | some user =>
      rw [hu] at h
      dsimp only at h
      injection h with h
      injection h with h1 h2
      subst h1
      refine noStored_mset _ uk _ hs ?_
      intro q hq
      exact hs (uk, user) (mget_some_mem hu) q hq

/-- Witness for `applyOp_preserves_no_stored_missingChunks`: a persistent
`createUpload` on the empty document preserves the invariant. -/
theorem applyOp_preserves_no_stored_missingChunks_witness :
    noStoredMissingChunks (applyOp ⟨⟨⟨[]⟩, none⟩, []⟩
      (.opCreate "u" ⟨"f.bin", 10, 6, true⟩ "up1" "t0")).store.file :=
  applyOp_preserves_no_stored_missingChunks ⟨⟨⟨[]⟩, none⟩, []⟩
    (.opCreate "u" ⟨"f.bin", 10, 6, true⟩ "up1" "t0")
    (by intro p hp q hq; simp at hp)

/-! ## Heap lemmas for `_deepClone` and claim C10 -/

theorem heapClosedBelow_spec (n : ℕ) (h : Heap)
    (hcl : heapClosedBelow n h = true) :
    ∀ a obj, a < n → h.get? a = some obj → objRefsBelow n obj = true := by
  intro a obj ha hobj
  have h1 : (h.take n).get? a = some obj := by
    rw [List.get?_take ha]
    exact hobj
  exact List.all_eq_true.mp hcl obj (List.get?_mem h1)

/-- Heaps agreeing below `n` (with the left one closed below `n`) serialize
any value whose references live below `n` identically. -/
theorem readVal_frame (n : ℕ) (h h₂ : Heap)
    (hcl : ∀ a obj, a < n → h.get? a = some obj → objRefsBelow n obj = true)
    (hag : agreeBelow n h h₂) :
    ∀ fuel v, valRefsBelow n v = true → readVal h fuel v = readVal h₂ fuel v := by
  intro fuel
  induction fuel with
  | zero =>
    intro v _
    rfl
  | succ fuel ih =>
    have hfields : ∀ obj, objRefsBelow n obj = true →
        readFields (readVal h fuel) obj = readFields (readVal h₂ fuel) obj := by
      intro obj hobj
      induction obj with
      | nil => rfl
      | cons p rest iho =>
        obtain ⟨k, v⟩ := p
        simp only [objRefsBelow, List.all_cons, Bool.and_eq_true] at hobj
        unfold readFields
        rw [ih v hobj.1, iho hobj.2]
    intro v hv
    cases v with
    | jnum m => rfl
    | jstr s => rfl
    | jbool b => rfl
    | jnull => rfl
    | jref a =>
      have ha : a < n := by simpa [valRefsBelow] using hv
      simp only [readVal]
      rw [← hag a ha]
      cases hobj : h.get? a with
      | none => rfl
      | some obj =>
        dsimp only
        rw [hfields obj (hcl a obj ha hobj)]

mutual
theorem allocTree_prefix : ∀ (h : Heap) (t : JTree),
    ∃ h₂, (allocTree h t).1 = h ++ h₂
  | _, .tnum _ => ⟨[], by simp [allocTree]⟩
  | _, .tstr _ => ⟨[], by simp [allocTree]⟩
  | _, .tbool _ => ⟨[], by simp [allocTree]⟩
  | _, .tnull => ⟨[], by simp [allocTree]⟩
  | h, .tobj fs => by
    obtain ⟨h₂, hh⟩ := allocFields_prefix h fs
    refine ⟨h₂ ++ [(allocFields h fs).2], ?_⟩
    simp [allocTree, hh]

theorem allocFields_prefix : ∀ (h : Heap) (fs : JFields),
    ∃ h₂, (allocFields h fs).1 = h ++ h₂
  | _, .nil => ⟨[], by simp [allocFields]⟩
  | h, .cons k t rest => by
    obtain ⟨h₂, hh⟩ := allocTree_prefix h t
    obtain ⟨h₃, hh₃⟩ := allocFields_prefix (allocTree h t).1 rest
    refine ⟨h₂ ++ h₃, ?_⟩
    simp only [allocFields]
    rw [hh₃, hh, List.append_assoc]
end

theorem allocTree_length_le (h : Heap) (t : JTree) :
    h.length ≤ (allocTree h t).1.length := by
  obtain ⟨h₂, hh⟩ := allocTree_prefix h t
  rw [hh]
  simp

theorem allocFields_length_le (h : Heap) (fs : JFields) :
    h.length ≤ (allocFields h fs).1.length := by
  obtain ⟨h₂, hh⟩ := allocFields_prefix h fs
  rw [hh]
  simp

theorem allocTree_agree (h : Heap) (t : JTree) :
    agreeBelow h.length h (allocTree h t).1 := by
  intro a ha
  obtain ⟨h₂, hh⟩ := allocTree_prefix h t
  rw [hh, List.get?_append ha]

mutual
theorem allocTree_fresh : ∀ (n : ℕ) (h : Heap) (t : JTree), n ≤ h.length →
    (∀ a obj, n ≤ a → h.get? a = some obj → objRefsAtLeast n obj = true) →
    valRefsAtLeast n (allocTree h t).2 = true ∧
    (∀ a obj, n ≤ a → (allocTree h t).1.get? a = some obj →
      objRefsAtLeast n obj = true)
  | _, _, .tnum _, _, hok => ⟨rfl, hok⟩
  | _, _, .tstr _, _, hok => ⟨rfl, hok⟩
  | _, _, .tbool _, _, hok => ⟨rfl, hok⟩
  | _, _, .tnull, _, hok => ⟨rfl, hok⟩
  | n, h, .tobj fs, hn, hok => by
    obtain ⟨hval, hheap⟩ := allocFields_fresh n h fs hn hok
    constructor
    · have hlen : h.length ≤ (allocFields h fs).1.length :=
        allocFields_length_le h fs
      simp only [allocTree, valRefsAtLeast]
      exact decide_eq_true (le_trans hn hlen)
    · intro a obj ha hobj
      simp only [allocTree] at hobj
      by_cases hlt : a < (allocFields h fs).1.length
      · rw [List.get?_append hlt] at hobj
        exact hheap a obj ha hobj
      · by_cases heq : a = (allocFields h fs).1.length
        · rw [heq, List.get?_concat_length] at hobj
          injection hobj with hobj
          rw [← hobj]
          exact hval
        · have hge : ((allocFields h fs).1 ++ [(allocFields h fs).2]).length ≤ a := by
            simp only [List.length_append, List.length_cons, List.length_nil]
            omega
          rw [List.get?_eq_none.mpr hge] at hobj
          cases hobj

theorem allocFields_fresh : ∀ (n : ℕ) (h : Heap) (fs : JFields), n ≤ h.length →
    (∀ a obj, n ≤ a → h.get? a = some obj → objRefsAtLeast n obj = true) →
    objRefsAtLeast n (allocFields h fs).2 = true ∧
    (∀ a obj, n ≤ a → (allocFields h fs).1.get? a = some obj →
      objRefsAtLeast n obj = true)
  | _, _, .nil, _, hok => ⟨rfl, hok⟩
  | n, h, .cons k t rest, hn, hok => by
    obtain ⟨hv, hh⟩ := allocTree_fresh n h t hn hok
    have hn₂ : n ≤ (allocTree h t).1.length :=
      le_trans hn (allocTree_length_le h t)
    obtain ⟨ho, hh₂⟩ := allocFields_fresh n (allocTree h t).1 rest hn₂ hh
    constructor
    · simp only [allocFields, objRefsAtLeast, List.all_cons, Bool.and_eq_true]
      exact ⟨hv, ho⟩
    · simpa only [allocFields] using hh₂
end

/-- Transporting a successful `readFields` along a pointwise-successful
refinement of the value serializer. -/
theorem readFields_congr_some (f g : JVal → Option JTree)
    (hfg : ∀ v t, f v = some t → g v = some t) :
    ∀ obj fs, readFields f obj = some fs → readFields g obj = some fs := by
  intro obj
  induction obj with
  | nil =>
    intro fs hr
    exact hr
  | cons p rest ih =>
    obtain ⟨k, v⟩ := p
    intro fs hr
    unfold readFields at hr ⊢
    cases hv : f v with
    | none =>
      rw [hv] at hr
      cases hr
    | some t₁ =>
      rw [hv] at hr
      cases hrest : readFields f rest with
      | none =>
        rw [hrest] at hr
        cases hr
      | some ts =>
        rw [hrest] at hr
        rw [hfg v t₁ hv, ih ts hrest]
        exact hr

/-- A successful serialization survives extending the heap on the right. -/
theorem readVal_extend : ∀ (fuel : ℕ) (h hext : Heap) (v : JVal) (t : JTree),
    readVal h fuel v = some t → readVal (h ++ hext) fuel v = some t := by
  intro fuel
  induction fuel with
  | zero =>
    intro h hext v t hr
    cases hr
  | succ fuel ih =>
    intro h hext v t hr
    cases v with
    | jnum m => exact hr
    | jstr s => exact hr
    | jbool b => exact hr
    | jnull => exact hr
    | jref a =>
      simp only [readVal] at hr ⊢
      cases hobj : h.get? a with
      | none =>
        rw [hobj] at hr
        cases hr
      | some obj =>
        rw [hobj] at hr
        dsimp only at hr
        have ha : a < h.length := by
          by_contra hge
          rw [List.get?_eq_none.mpr (by omega)] at hobj
          cases hobj
        rw [List.get?_append ha, hobj]
        dsimp only
        cases hf : readFields (readVal h fuel) obj with
        | none =>
          rw [hf] at hr
          cases hr
        | some fs =>
          rw [hf] at hr
          rw [readFields_congr_some (readVal h fuel) (readVal (h ++ hext) fuel)
            (fun v₀ t₀ => ih h hext v₀ t₀) obj fs hf]
          exact hr

/-- A successful serialization survives increasing the fuel. -/
theorem readVal_mono : ∀ (fuel fuel₂ : ℕ) (h : Heap) (v : JVal) (t : JTree),
    fuel ≤ fuel₂ → readVal h fuel v = some t → readVal h fuel₂ v = some t := by
  intro fuel
  induction fuel with
  | zero =>
    intro fuel₂ h v t _ hr
    cases hr
  | succ fuel ih =>
    intro fuel₂ h v t hle hr
    cases fuel₂ with
    | zero => omega
    | succ fuel₃ =>
      have hle₃ : fuel ≤ fuel₃ := by omega
      cases v with
      | jnum m => exact hr
      | jstr s => exact hr
      | jbool b => exact hr
      | jnull => exact hr
      | jref a =>
        simp only [readVal] at hr ⊢
        cases hobj : h.get? a with
        | none =>
          rw [hobj] at hr
          cases hr
        | some obj =>
          rw [hobj] at hr
          dsimp only at hr ⊢
          cases hf : readFields (readVal h fuel) obj with
          | none =>
            rw [hf] at hr
            cases hr
          | some fs =>
            rw [hf] at hr
            rw [readFields_congr_some (readVal h fuel) (readVal h fuel₃)
              (fun v₀ t₀ => ih fuel₃ h v₀ t₀ hle₃) obj fs hf]
            exact hr

mutual
/-- Reading the allocated copy back (with enough fuel, in any right
extension of the allocation heap) returns exactly the serialized tree. -/
theorem readback_tree : ∀ (t : JTree) (h hext : Heap) (fuel : ℕ),
    treeDepth t ≤ fuel →
    readVal ((allocTree h t).1 ++ hext) fuel (allocTree h t).2 = some t
  | .tnum m, h, hext, fuel, hf => by
    cases fuel with
    | zero => simp [treeDepth] at hf
    | succ f => rfl
  | .tstr s, h, hext, fuel, hf => by
    cases fuel with
    | zero => simp [treeDepth] at hf
    | succ f => rfl
  | .tbool b, h, hext, fuel, hf => by
    cases fuel with
    | zero => simp [treeDepth] at hf
    | succ f => rfl
  | .tnull, h, hext, fuel, hf => by
    cases fuel with
    | zero => simp [treeDepth] at hf
    | succ f => rfl
  | .tobj fs, h, hext, fuel, hf => by
    cases fuel with
    | zero => simp [treeDepth] at hf
    | succ f =>
      have hf₂ : fieldsDepth fs ≤ f := by
        simp only [treeDepth] at hf
        omega
      simp only [allocTree, readVal]
      rw [List.append_assoc, List.get?_append_right (le_refl _)]
      simp only [Nat.sub_self, List.singleton_append, List.get?_cons_zero]
      rw [readback_fields fs h ((allocFields h fs).2 :: hext) f hf₂]
      rfl

theorem readback_fields : ∀ (fs : JFields) (h hext : Heap) (fuel : ℕ),
    fieldsDepth fs ≤ fuel →
    readFields (readVal ((allocFields h fs).1 ++ hext) fuel)
      (allocFields h fs).2 = some fs
  | .nil, h, hext, fuel, hf => rfl
  | .cons k t rest, h, hext, fuel, hf => by
    have hft : treeDepth t ≤ fuel :=
      le_trans (le_max_left _ _) hf
    have hfr : fieldsDepth rest ≤ fuel :=
      le_trans (le_max_right _ _) hf
    obtain ⟨h₃, hh₃⟩ := allocFields_prefix (allocTree h t).1 rest
    have h1 : readVal ((allocFields h (.cons k t rest)).1 ++ hext) fuel
        (allocTree h t).2 = some t := by
      have hb := readback_tree t h (h₃ ++ hext) fuel hft
      have hcast : (allocTree h t).1 ++ (h₃ ++ hext)
          = (allocFields h (.cons k t rest)).1 ++ hext := by
        simp only [allocFields]
        rw [hh₃, List.append_assoc]
      rw [hcast] at hb
      exact hb
    have h2 : readFields
        (readVal ((allocFields h (.cons k t rest)).1 ++ hext) fuel)
        (allocFields (allocTree h t).1 rest).2 = some rest := by
      have hb := readback_fields rest (allocTree h t).1 hext fuel hfr
      have hcast : (allocFields (allocTree h t).1 rest).1 ++ hext
          = (allocFields h (.cons k t rest)).1 ++ hext := by
        simp only [allocFields]
      rw [hcast] at hb
      exact hb
    simp only [allocFields]
    unfold readFields
    rw [show (allocFields h (JFields.cons k t rest)).1
      = (allocFields (allocTree h t).1 rest).1 from rfl] at h1 h2
    rw [h1, h2]
end

theorem setField_agreeBelow (h₁ : Heap) (a : ℕ) (k : String) (w : JVal)
    (n : ℕ) (ha : n ≤ a) : agreeBelow n h₁ (setField h₁ a k w) := by
  intro b hb
  unfold setField
  cases hobj : h₁.get? a with
  | none => rfl
  | some obj =>
    exact (List.get?_set_ne _ _ (by omega)).symm

/-- C10: `_deepClone` (`JSON.parse(JSON.stringify(value))`), as used by
`_decorateUpload` for every upload object the manager returns, allocates
the copy entirely in fresh heap cells: mutating any field of any object at
a fresh address (in particular, of the returned clone, whose whole object
graph lives at fresh addresses) never changes what the stored value reads
back as — and the clone reads back equal to the original. -/
theorem deepClone_isolated (h : Heap) (fuel : ℕ) (v : JVal) (h₁ : Heap)
    (v₁ : JVal)
    (hcl : heapClosedBelow h.length h = true)
    (hv : valRefsBelow h.length v = true)
    (hclone : deepCloneH h fuel v = some (h₁, v₁)) :
    (∀ a k w, h.length ≤ a →
      readVal (setField h₁ a k w) fuel v = readVal h fuel v) ∧
    valRefsAtLeast h.length v₁ = true ∧
    (∀ a obj, h.length ≤ a → h₁.get? a = some obj →
      objRefsAtLeast h.length obj = true) ∧
    (∃ fuel₂, readVal h₁ fuel₂ v₁ = readVal h fuel v) := by
  unfold deepCloneH at hclone
  cases hr : readVal h fuel v with
  | none =>
    rw [hr] at hclone
    cases hclone
  | some t =>
    rw [hr] at hclone
    injection hclone with hclone
    have h₁eq : h₁ = (allocTree h t).1 := (congrArg Prod.fst hclone).symm
    have v₁eq : v₁ = (allocTree h t).2 := (congrArg Prod.snd hclone).symm
    have hbase : ∀ a obj, h.length ≤ a → h.get? a = some obj →
        objRefsAtLeast h.length obj = true := by
      intro a obj ha hobj
      rw [List.get?_eq_none.mpr ha] at hobj
      cases hobj
    refine ⟨?_, ?_, ?_, ?_⟩
    · intro a k w ha
      have hag : agreeBelow h.length h (setField h₁ a k w) := by
        intro b hb
        rw [(allocTree_agree h t) b hb, ← h₁eq]
        exact (setField_agreeBelow h₁ a k w h.length ha) b hb
      exact ((readVal_frame h.length h (setField h₁ a k w)
        (heapClosedBelow_spec h.length h hcl) hag fuel v hv).symm).trans hr
    · rw [v₁eq]
      exact (allocTree_fresh h.length h t (le_refl _) hbase).1
    · rw [h₁eq]
      exact (allocTree_fresh h.length h t (le_refl _) hbase).2
    · refine ⟨treeDepth t, ?_⟩
      have hb := readback_tree t h [] (treeDepth t) (le_refl _)
      rw [List.append_nil] at hb
      rw [h₁eq, v₁eq, hb]

/-- Witness for `deepClone_isolated`: clone a one-object heap and mutate
the fresh copy. -/
theorem deepClone_isolated_witness :
    (∀ a k w, ([[("x", JVal.jnum 1)]] : Heap).length ≤ a →
      readVal (setField [[("x", JVal.jnum 1)], [("x", JVal.jnum 1)]] a k w) 2
          (.jref 0)
        = readVal [[("x", JVal.jnum 1)]] 2 (.jref 0)) ∧
    valRefsAtLeast ([[("x", JVal.jnum 1)]] : Heap).length (.jref 1) = true ∧
    (∀ a obj, ([[("x", JVal.jnum 1)]] : Heap).length ≤ a →
      ([[("x", JVal.jnum 1)], [("x", JVal.jnum 1)]] : Heap).get? a = some obj →
      objRefsAtLeast ([[("x", JVal.jnum 1)]] : Heap).length obj = true) ∧
    (∃ fuel₂, readVal [[("x", JVal.jnum 1)], [("x", JVal.jnum 1)]] fuel₂
        (.jref 1)
      = readVal [[("x", JVal.jnum 1)]] 2 (.jref 0)) :=
  deepClone_isolated [[("x", JVal.jnum 1)]] 2 (.jref 0)
    [[("x", JVal.jnum 1)], [("x", JVal.jnum 1)]] (.jref 1)
    (by decide) (by decide) (by decide)

end MFT
